import Mathlib

/-!
# Verification of the split-app expense tracker core

Shallow embedding of the settlement engine of `src/backend/src/index.ts`:
the expense validity checks, the balance aggregation (`/balances` and
`/settlements` both contain the identical validation loop and balance map),
and the greedy two-pointer settlement planner of `/settlements`.

Numeric values (Prisma `Decimal.toNumber()` results) are modelled as exact
rationals; JavaScript's `+x.toFixed(2)` is modelled by `round2`, rounding
to two decimal places (round-to-nearest; all concrete inputs used below are
chosen away from ties, where every nearest-rounding convention agrees).

The snapshot handed to the two read endpoints by
`prisma.person.findMany({include: {paid, splits: {include: {expense:
{include: {splits}}}}}})` is modelled structurally: a person carries the
expenses they paid and their split rows, each split row carrying its owning
expense together with that expense's full split list.
-/

namespace SplitApp

/-- The `splitType` enum of the Prisma schema (`equal | percentage | exact`). -/
inductive SplitType where
  | equal
  | percentage
  | exact
deriving DecidableEq, Repr

/-- An `ExpenseSplit` row as it appears nested inside
`expense.splits` (no back-reference to the expense). -/
structure InnerSplit where
  splitType : SplitType
  value : ℚ
deriving DecidableEq, Repr

/-- An `Expense` row together with its included `splits`. -/
structure Expense where
  id : ℕ
  amount : ℚ
  splits : List InnerSplit
deriving DecidableEq, Repr

/-- An `ExpenseSplit` row as it appears in `person.splits`: the row's own
`splitType`/`value` plus the included owning `expense`. -/
structure OuterSplit where
  splitType : SplitType
  value : ℚ
  expense : Expense
deriving DecidableEq, Repr

/-- A `Person` row with included `paid` expenses and `splits`. -/
structure Person where
  name : String
  paid : List Expense
  splits : List OuterSplit
deriving DecidableEq, Repr

/-- Rounding to two decimal places, modelling `+x.toFixed(2)`. -/
def round2 (x : ℚ) : ℚ := (round (x * 100) : ℚ) / 100

/-- The validation error returned with HTTP status 400; it carries exactly
the data interpolated into the response message. -/
inductive ValError where
  /-- Message: `Invalid 'exact' splits for expense ID {id}: sum
  ({totalSplit}) exceeds total amount ({total})` -/
  | exactErr (id : ℕ) (totalSplit : ℚ) (total : ℚ)
  /-- Message: `Invalid 'percentage' splits for expense ID {id}: total
  percentage ({totalPercentage}%) exceeds 100%` -/
  | percentageErr (id : ℕ) (totalPercentage : ℚ)
deriving DecidableEq, Repr

/-- Body of the validation loop for one split row (index.ts lines 236-260
and identically 356-380): the `exact` and `percentage` aggregate checks. -/
def checkSplit (split : OuterSplit) : Option ValError :=
  let expense := split.expense
  if split.splitType = SplitType.exact then
    let totalSplit := expense.splits.foldl (fun sum s => sum + s.value) 0
    let total := expense.amount
    if totalSplit > total + 0.01 then
      some (ValError.exactErr expense.id totalSplit total)
    else
      none
  else if split.splitType = SplitType.percentage then
    let totalPercentage := expense.splits.foldl (fun sum s => sum + s.value) 0
    if totalPercentage > 100.01 then
      some (ValError.percentageErr expense.id totalPercentage)
    else
      none
  else
    none

/-- The validation double loop (`for person of people / for split of
person.splits`, lines 234-262 and 354-382), returning on the first error. -/
def validatePeople (people : List Person) : Option ValError :=
  people.findSome? (fun person => person.splits.findSome? checkSplit)

/-- The reduction
`person.paid.reduce((sum, exp) => sum + exp.amount.toNumber(), 0)`. -/
def rawPaid (person : Person) : ℚ :=
  person.paid.foldl (fun sum exp => sum + exp.amount) 0

/-- The reduction `person.splits.reduce(...)` computing the owed total
(lines 269-283 and 389-403), transcribed with the inline share
computation: `numPeople = split.expense.splits.length || 1` and the
`equal` / `percentage` / `exact` if-chain over `share = 0`. -/
def rawOwes (person : Person) : ℚ :=
  person.splits.foldl
    (fun sum split =>
      let total := split.expense.amount
      let numPeople : ℕ := if split.expense.splits.length = 0 then 1
        else split.expense.splits.length
      let share : ℚ :=
        if split.splitType = SplitType.equal then total / numPeople
        else if split.splitType = SplitType.percentage then
          (split.value / 100) * total
        else if split.splitType = SplitType.exact then split.value
        else 0
      sum + share)
    0

/-- The Split Evaluator contract of §4.1: the per-row share expression of
the source, as a standalone function of one split row. -/
def shareOf (split : OuterSplit) : ℚ :=
  let total := split.expense.amount
  let numPeople : ℕ := if split.expense.splits.length = 0 then 1
    else split.expense.splits.length
  if split.splitType = SplitType.equal then total / numPeople
  else if split.splitType = SplitType.percentage then
    (split.value / 100) * total
  else if split.splitType = SplitType.exact then split.value
  else 0

/-- One entry of the `balances` array: `{name, paid, owes, balance}`. -/
structure BalanceRec where
  name : String
  paid : ℚ
  owes : ℚ
  balance : ℚ
deriving DecidableEq, Repr

instance : Inhabited BalanceRec := ⟨⟨"", 0, 0, 0⟩⟩

/-- The map `people.map(...)` (lines 266-291, identically 386-411):
`{name, paid: +paid.toFixed(2), owes: +owes.toFixed(2),
balance: +(paid - owes).toFixed(2)}`. -/
def computeBalances (people : List Person) : List BalanceRec :=
  people.map (fun person =>
    let paid := rawPaid person
    let owes := rawOwes person
    { name := person.name
      paid := round2 paid
      owes := round2 owes
      balance := round2 (paid - owes) })

/-- One element of the `settlements` array: `{from, to, amount}`
(`from` and `to` are Lean keywords, hence `from_` / `to_`). -/
structure Transfer where
  from_ : String
  to_ : String
  amount : ℚ
deriving DecidableEq, Repr

/-- State of the `/settlements` while-loop (lines 299-321): the two
filtered-and-sorted arrays (entries updated in place in the source,
functionally here), the cursors `i`, `j`, and the emitted `settlements`. -/
structure SettleState where
  debtors : List BalanceRec
  creditors : List BalanceRec
  i : ℕ
  j : ℕ
  settlements : List Transfer
deriving DecidableEq, Repr

/-- Loop guard `i < debtors.length && j < creditors.length`. -/
def settleCond (st : SettleState) : Bool :=
  decide (st.i < st.debtors.length) && decide (st.j < st.creditors.length)

/-- One iteration of the while-loop body: take the current debtor and
creditor, `amount = Math.min(-debtor.balance, creditor.balance)`; if
`amount > 0.01` push `{from, to, amount: +amount.toFixed(2)}` and adjust
both working balances by the raw `amount`; then advance each cursor whose
(post-adjustment) balance magnitude is `< 0.01`. -/
def settleStep (st : SettleState) : SettleState :=
  let debtor := st.debtors.getD st.i default
  let creditor := st.creditors.getD st.j default
  let amount := min (-debtor.balance) creditor.balance
  if amount > 0.01 then
    let newDebtorBal := debtor.balance + amount
    let newCreditorBal := creditor.balance - amount
    { debtors := st.debtors.set st.i { debtor with balance := newDebtorBal }
      creditors :=
        st.creditors.set st.j { creditor with balance := newCreditorBal }
      i := if |newDebtorBal| < 0.01 then st.i + 1 else st.i
      j := if |newCreditorBal| < 0.01 then st.j + 1 else st.j
      settlements := st.settlements ++
        [{ from_ := debtor.name, to_ := creditor.name
           amount := round2 amount }] }
  else
    { st with
      i := if |debtor.balance| < 0.01 then st.i + 1 else st.i
      j := if |creditor.balance| < 0.01 then st.j + 1 else st.j }

/-- The while-loop, fuelled: `none` means the given fuel was exhausted
with the guard still true (the source loop is still running). -/
def settleLoop : ℕ → SettleState → Option SettleState
  | 0, st => if settleCond st then none else some st
  | fuel + 1, st =>
      if settleCond st then settleLoop fuel (settleStep st) else some st

/-- The `creditors` array: `balances.filter(p => p.balance > 0)` sorted
by balance (`(a, b) => b.balance - a.balance`). -/
def creditorsOf (balances : List BalanceRec) : List BalanceRec :=
  (balances.filter (fun p => decide (p.balance > 0))).mergeSort
    (fun a b => decide (b.balance ≤ a.balance))

/-- The `debtors` array: `balances.filter(p => p.balance < 0)` ascending by
balance (`(a, b) => a.balance - b.balance`, most negative first). -/
def debtorsOf (balances : List BalanceRec) : List BalanceRec :=
  (balances.filter (fun p => decide (p.balance < 0))).mergeSort
    (fun a b => decide (a.balance ≤ b.balance))

/-- The Settlement Planner (lines 293-321): partition, sort, and run the
greedy loop from `i = 0, j = 0` with no settlements emitted yet. -/
def planSettlements (balances : List BalanceRec) (fuel : ℕ) :
    Option SettleState :=
  settleLoop fuel
    { debtors := debtorsOf balances
      creditors := creditorsOf balances
      i := 0
      j := 0
      settlements := [] }

/-- The record of `balances` returned as `summary` for person `b`: the
source mutates the array elements through the `debtors` / `creditors`
aliases, so the returned record is the (possibly updated) record carrying
`b`'s name — recovered here by name lookup in the final lists.  Faithful
to the reference semantics because `Person.name` is unique in the schema
(every person row is created by `upsert where {name}`), so a snapshot
never holds two records of the same name. -/
def updatedRecord (debtors creditors : List BalanceRec)
    (b : BalanceRec) : BalanceRec :=
  if b.balance > 0 then
    (creditors.find? (fun r => r.name == b.name)).getD b
  else if b.balance < 0 then
    (debtors.find? (fun r => r.name == b.name)).getD b
  else
    b

/-- A 400-class response: `res.status(400).json({success: false,
message})` with the message's data. -/
structure HttpError where
  status : ℕ
  error : ValError
deriving DecidableEq, Repr

/-- Response shape of `GET /settlements`: `{summary, settlements}`. -/
structure SettlementsResp where
  summary : List BalanceRec
  settlements : List Transfer
deriving DecidableEq, Repr

/-- Endpoint `GET /settlements` on a snapshot: validate (400 on the first
violation), aggregate balances, run the planner; `none` when the loop has
not terminated within `fuel` iterations. -/
def settlementsEndpoint (people : List Person) (fuel : ℕ) :
    Option (Except HttpError SettlementsResp) :=
  match validatePeople people with
  | some e => some (Except.error { status := 400, error := e })
  | none =>
      let balances := computeBalances people
      match planSettlements balances fuel with
      | none => none
      | some st =>
          some (Except.ok
            { summary :=
                balances.map (updatedRecord st.debtors st.creditors)
              settlements := st.settlements })

/-- Endpoint `GET /balances` on a snapshot: validate (400 on the first
violation), then return the aggregated balances. -/
def balancesEndpoint (people : List Person) :
    Except HttpError (List BalanceRec) :=
  match validatePeople people with
  | some e => Except.error { status := 400, error := e }
  | none => Except.ok (computeBalances people)

/-- Total amount of emitted transfers sent by `name`. -/
def outSum (settlements : List Transfer) (name : String) : ℚ :=
  (settlements.filter (fun t => t.from_ == name)).foldl
    (fun sum t => sum + t.amount) 0

/-- Total amount of emitted transfers received by `name`. -/
def inSum (settlements : List Transfer) (name : String) : ℚ :=
  (settlements.filter (fun t => t.to_ == name)).foldl
    (fun sum t => sum + t.amount) 0

/-! ## Helper lemmas -/

/-- A `reduce((sum, x) => sum + f(x), a)` is `a` plus the sum of the
mapped list. -/
theorem foldl_add_eq {α : Type} (f : α → ℚ) :
    ∀ (l : List α) (a : ℚ),
      l.foldl (fun sum x => sum + f x) a = a + (l.map f).sum
  | [], a => by simp
  | x :: l, a => by
      simp only [List.foldl_cons, List.map_cons, List.sum_cons]
      rw [foldl_add_eq f l, add_assoc]

/-! ## Concrete snapshots used as witnesses and counterexamples -/

/-- Expense of amount `0.006` with a single exact split of `0.003`. -/
def expSmall : Expense :=
  ⟨1, 6/1000, [⟨SplitType.exact, 3/1000⟩]⟩

/-- Person who paid `expSmall` and owes its `0.003` exact split. -/
def personSmall : Person :=
  ⟨"A", [expSmall], [⟨SplitType.exact, 3/1000, expSmall⟩]⟩

/-- Expense amount 100 with exact splits 40 and 70 (spec §8 scenario). -/
def exp100 : Expense :=
  ⟨10, 100, [⟨SplitType.exact, 40⟩, ⟨SplitType.exact, 70⟩]⟩

def personA40 : Person := ⟨"A", [], [⟨SplitType.exact, 40, exp100⟩]⟩

def personB70 : Person := ⟨"B", [], [⟨SplitType.exact, 70, exp100⟩]⟩

def peopleExactBad : List Person := [personA40, personB70]

/-- Expense amount 200 with percentage splits 50 and 60 (spec §8). -/
def exp200bad : Expense :=
  ⟨20, 200, [⟨SplitType.percentage, 50⟩, ⟨SplitType.percentage, 60⟩]⟩

def peoplePctBad : List Person :=
  [⟨"A", [], [⟨SplitType.percentage, 50, exp200bad⟩]⟩,
   ⟨"B", [], [⟨SplitType.percentage, 60, exp200bad⟩]⟩]

/-- Expense amount 200 with percentage splits 50 and 50 (spec §8). -/
def exp200ok : Expense :=
  ⟨21, 200, [⟨SplitType.percentage, 50⟩, ⟨SplitType.percentage, 50⟩]⟩

def personA50 : Person := ⟨"A", [], [⟨SplitType.percentage, 50, exp200ok⟩]⟩

def personB50 : Person := ⟨"B", [], [⟨SplitType.percentage, 50, exp200ok⟩]⟩

def peoplePctOk : List Person := [personA50, personB50]

/-! ## C1 — how `balance` is rounded -/

/-- C1 (counterexample): the claim says every returned balance equals
`round2(paid) − round2(owes)`.  On the snapshot `[personSmall]` the
endpoint returns `paid = 0.01`, `owes = 0`, `balance = 0` (because the
code rounds the unrounded difference `0.006 − 0.003 = 0.003` down to 0),
while `round2(paid) − round2(owes) = 0.01 − 0 = 0.01 ≠ 0`. -/
theorem C1_counterexample :
    balancesEndpoint [personSmall] =
      Except.ok [{ name := "A", paid := 1/100, owes := 0, balance := 0 }] ∧
    ¬ ((0 : ℚ) = 1/100 - (0 : ℚ)) := by
  have hcs : checkSplit ⟨SplitType.exact, 3/1000, expSmall⟩ = none := by
    simp only [checkSplit, expSmall]
    norm_num
  simp only [expSmall] at hcs
  constructor
  · simp [balancesEndpoint, validatePeople, List.findSome?, hcs,
      computeBalances, rawPaid, rawOwes, personSmall, expSmall]
    norm_num [round2, round_eq]
  · norm_num

/-- C1 (amended): every record returned by the balance aggregator has
`paid = round2(rawPaid)`, `owes = round2(rawOwes)` and
`balance = round2(rawPaid − rawOwes)` — the 2-decimal rounding of the
*unrounded* difference, not `round2(paid) − round2(owes)`. -/
theorem C1_amended (people : List Person) (r : BalanceRec)
    (hr : r ∈ computeBalances people) :
    ∃ p ∈ people, r.name = p.name ∧ r.paid = round2 (rawPaid p) ∧
      r.owes = round2 (rawOwes p) ∧
      r.balance = round2 (rawPaid p - rawOwes p) := by
  simp only [computeBalances, List.mem_map] at hr
  obtain ⟨p, hp, rfl⟩ := hr
  exact ⟨p, hp, rfl, rfl, rfl, rfl⟩

theorem C1_amended_witness :
    ∃ p ∈ [personSmall],
      ({ name := "A", paid := 1/100, owes := 0, balance := 0 } :
        BalanceRec).name = p.name ∧
      (1/100 : ℚ) = round2 (rawPaid p) ∧
      (0 : ℚ) = round2 (rawOwes p) ∧
      (0 : ℚ) = round2 (rawPaid p - rawOwes p) :=
  C1_amended [personSmall] ⟨"A", 1/100, 0, 0⟩
    (by
      simp [computeBalances, rawPaid, rawOwes, personSmall, expSmall]
      norm_num [round2, round_eq, BalanceRec.mk.injEq])

/-! ## C9 — the Split Evaluator -/

/-- C9: for every split row processed by the aggregator, the owed total is
the sum of the per-row shares, and the share is: for `equal` the expense
amount divided by the number of splits of the expense (a zero split count
treated as 1); for `percentage`, `value/100` times the amount; for
`exact`, the declared value — independent of the other splits. -/
theorem C9_share_rule (people : List Person) (p : Person) (s : OuterSplit)
    (hp : p ∈ people) (hs : s ∈ p.splits) :
    rawOwes p = (p.splits.map shareOf).sum ∧
    (s.splitType = SplitType.equal →
      shareOf s = s.expense.amount /
        ((if s.expense.splits.length = 0 then 1
          else s.expense.splits.length : ℕ) : ℚ)) ∧
    (s.splitType = SplitType.percentage →
      shareOf s = (s.value / 100) * s.expense.amount) ∧
    (s.splitType = SplitType.exact → shareOf s = s.value) := by
  refine ⟨?_, ?_, ?_, ?_⟩
  · show p.splits.foldl (fun sum split => sum + shareOf split) 0 = _
    rw [foldl_add_eq, zero_add]
  · intro h; simp [shareOf, h]
  · intro h; simp [shareOf, h]
  · intro h; simp [shareOf, h]

theorem C9_share_rule_witness :
    rawOwes personA50 =
      (personA50.splits.map shareOf).sum ∧
    ((⟨SplitType.percentage, 50, exp200ok⟩ : OuterSplit).splitType =
        SplitType.equal →
      shareOf ⟨SplitType.percentage, 50, exp200ok⟩ =
        (⟨SplitType.percentage, 50, exp200ok⟩ : OuterSplit).expense.amount /
          ((if (⟨SplitType.percentage, 50, exp200ok⟩ :
                OuterSplit).expense.splits.length = 0 then 1
            else (⟨SplitType.percentage, 50, exp200ok⟩ :
                OuterSplit).expense.splits.length : ℕ) : ℚ)) ∧
    ((⟨SplitType.percentage, 50, exp200ok⟩ : OuterSplit).splitType =
        SplitType.percentage →
      shareOf ⟨SplitType.percentage, 50, exp200ok⟩ =
        (50 / 100 : ℚ) *
          (⟨SplitType.percentage, 50, exp200ok⟩ :
            OuterSplit).expense.amount) ∧
    ((⟨SplitType.percentage, 50, exp200ok⟩ : OuterSplit).splitType =
        SplitType.exact →
      shareOf ⟨SplitType.percentage, 50, exp200ok⟩ = 50) :=
  C9_share_rule peoplePctOk personA50 ⟨SplitType.percentage, 50, exp200ok⟩
    (by simp [peoplePctOk]) (by simp [personA50])

/-! ## C6 — exact-split validation -/

/-- C6: a split row of type `exact` whose expense's splits sum to more
than `amount + 0.01` makes the checker emit the error naming the expense
id, the computed sum and the amount, and the whole request is rejected;
a sum of at most `amount + 0.01` passes this check. -/
theorem C6_exact_check (people : List Person) (p : Person) (s : OuterSplit)
    (hp : p ∈ people) (hs : s ∈ p.splits)
    (hx : s.splitType = SplitType.exact) (tot : ℚ)
    (htot : s.expense.splits.foldl (fun sum r => sum + r.value) 0 = tot) :
    (tot > s.expense.amount + 0.01 →
      checkSplit s =
        some (ValError.exactErr s.expense.id tot s.expense.amount) ∧
      validatePeople people ≠ none) ∧
    (tot ≤ s.expense.amount + 0.01 → checkSplit s = none) := by
  have hcs : checkSplit s =
      if tot > s.expense.amount + 0.01 then
        some (ValError.exactErr s.expense.id tot s.expense.amount)
      else none := by
    simp [checkSplit, hx, htot]
  constructor
  · intro h
    refine ⟨by rw [hcs, if_pos h], fun hnone => ?_⟩
    rw [validatePeople, List.findSome?_eq_none_iff] at hnone
    have h2 := hnone p hp
    rw [List.findSome?_eq_none_iff] at h2
    have h3 := h2 s hs
    rw [hcs, if_pos h] at h3
    exact Option.noConfusion h3
  · intro h
    rw [hcs, if_neg (not_lt.mpr h)]

theorem C6_exact_check_witness :
    checkSplit ⟨SplitType.exact, 40, exp100⟩ =
      some (ValError.exactErr 10 110 100) ∧
    validatePeople peopleExactBad ≠ none := by
  have h := C6_exact_check peopleExactBad personA40
    ⟨SplitType.exact, 40, exp100⟩
    (by simp [peopleExactBad]) (by simp [personA40]) rfl 110
    (by norm_num [exp100])
  have h2 := h.1 (by norm_num [exp100])
  simpa [exp100] using h2

/-! ## C7 — percentage-split validation -/

/-- C7: a split row of type `percentage` whose expense's splits sum to
more than `100.01` makes the checker emit the error naming the expense id
and the total percentage, and the whole request is rejected; a sum of at
most `100.01` passes this check, and the row's share is
`value/100 × amount`. -/
theorem C7_percentage_check (people : List Person) (p : Person)
    (s : OuterSplit) (hp : p ∈ people) (hs : s ∈ p.splits)
    (hper : s.splitType = SplitType.percentage) (tot : ℚ)
    (htot : s.expense.splits.foldl (fun sum r => sum + r.value) 0 = tot) :
    (tot > 100.01 →
      checkSplit s = some (ValError.percentageErr s.expense.id tot) ∧
      validatePeople people ≠ none) ∧
    (tot ≤ 100.01 → checkSplit s = none) ∧
    shareOf s = (s.value / 100) * s.expense.amount := by
  have hcs : checkSplit s =
      if tot > 100.01 then
        some (ValError.percentageErr s.expense.id tot)
      else none := by
    simp [checkSplit, hper, htot]
  refine ⟨?_, ?_, by simp [shareOf, hper]⟩
  · intro h
    refine ⟨by rw [hcs, if_pos h], fun hnone => ?_⟩
    rw [validatePeople, List.findSome?_eq_none_iff] at hnone
    have h2 := hnone p hp
    rw [List.findSome?_eq_none_iff] at h2
    have h3 := h2 s hs
    rw [hcs, if_pos h] at h3
    exact Option.noConfusion h3
  · intro h
    rw [hcs, if_neg (not_lt.mpr h)]

/-- Witness for C7: percentage splits `{A: 50, B: 60}` on an expense of
amount 200 are rejected (`110 > 100.01`), while `{A: 50, B: 50}` pass
validation and make each of A and B owe 100. -/
theorem C7_percentage_check_witness :
    (checkSplit ⟨SplitType.percentage, 50, exp200bad⟩ =
        some (ValError.percentageErr 20 110) ∧
      validatePeople peoplePctBad ≠ none) ∧
    validatePeople peoplePctOk = none ∧
    rawOwes personA50 = 100 ∧ rawOwes personB50 = 100 := by
  have h := C7_percentage_check peoplePctBad
    (⟨"A", [], [⟨SplitType.percentage, 50, exp200bad⟩]⟩ : Person)
    ⟨SplitType.percentage, 50, exp200bad⟩
    (by simp [peoplePctBad]) (by simp) rfl 110 (by norm_num [exp200bad])
  have h2 := h.1 (by norm_num)
  refine ⟨by simpa [exp200bad] using h2, ?_, ?_, ?_⟩
  · simp [validatePeople, checkSplit, peoplePctOk, personA50, personB50,
      exp200ok]
    norm_num
  · simp [rawOwes, personA50, exp200ok]
    norm_num
  · simp [rawOwes, personB50, exp200ok]
    norm_num

/-! ## C8 — validation aborts the whole request -/

/-- C8: when validation fails, both endpoints reject the whole request
with a 400-class response carrying the validation error, and no balances
are computed for anyone. -/
theorem C8_abort (people : List Person) (e : ValError) (fuel : ℕ)
    (h : validatePeople people = some e) :
    settlementsEndpoint people fuel =
      some (Except.error { status := 400, error := e }) ∧
    balancesEndpoint people =
      Except.error { status := 400, error := e } := by
  constructor
  · simp [settlementsEndpoint, h]
  · simp [balancesEndpoint, h]

theorem C8_abort_witness :
    settlementsEndpoint peopleExactBad 5 =
      some (Except.error
        { status := 400, error := ValError.exactErr 10 110 100 }) ∧
    balancesEndpoint peopleExactBad =
      Except.error
        { status := 400, error := ValError.exactErr 10 110 100 } :=
  C8_abort peopleExactBad (ValError.exactErr 10 110 100) 5
    (by norm_num [validatePeople, checkSplit, peopleExactBad, personA40,
      personB70, exp100])

/-! ## C4 — the settlement loop does not always terminate -/

/-- Expense of amount `0.01` fully owed by "B" as an exact split. -/
def expCent : Expense := ⟨2, 1/100, [⟨SplitType.exact, 1/100⟩]⟩

/-- Person A paid the `0.01` expense: aggregated balance `+0.01`. -/
def personPayer : Person := ⟨"A", [expCent], []⟩

/-- Person B owes the `0.01` expense: aggregated balance `-0.01`. -/
def personOwer : Person := ⟨"B", [], [⟨SplitType.exact, 1/100, expCent⟩]⟩

/-- Snapshot whose balances are exactly `+0.01` and `-0.01`. -/
def peopleCent : List Person := [personPayer, personOwer]

/-- The loop state reached on `peopleCent`: one debtor at `-0.01`, one
creditor at `+0.01`, both cursors at 0. -/
def stuckState : SettleState :=
  { debtors := [⟨"B", 0, 1/100, -(1/100)⟩]
    creditors := [⟨"A", 1/100, 0, 1/100⟩]
    i := 0
    j := 0
    settlements := [] }

/-- C4 (refuting the termination claim): on the snapshot `peopleCent` the
planner reaches a state where `amount = min(0.01, 0.01) = 0.01` is not
`> 0.01`, so no transfer is emitted, and neither residual has magnitude
`< 0.01`, so neither cursor advances: the loop body leaves the state
unchanged with the guard still true, and the `/settlements` request never
returns, whatever the iteration budget. -/
theorem C4_settlements_hangs (fuel : ℕ) :
    settlementsEndpoint peopleCent fuel = none := by
  have hval : validatePeople peopleCent = none := by
    simp [validatePeople, checkSplit, peopleCent, personPayer, personOwer,
      expCent, List.findSome?]
    norm_num
  have hbal : computeBalances peopleCent =
      [⟨"A", 1/100, 0, 1/100⟩, ⟨"B", 0, 1/100, -(1/100)⟩] := by
    simp [computeBalances, rawPaid, rawOwes, peopleCent, personPayer,
      personOwer, expCent]
    norm_num [round2, round_eq]
  have hstep : settleStep stuckState = stuckState := by
    simp [settleStep, stuckState]
    norm_num [abs_of_nonneg]
  have hcond : settleCond stuckState = true := by
    simp [settleCond, stuckState]
  have hloop : ∀ n, settleLoop n stuckState = none := by
    intro n
    induction n with
    | zero => simp [settleLoop, hcond]
    | succ k ih => simp [settleLoop, hcond, hstep, ih]
  have hplan : planSettlements (computeBalances peopleCent) fuel = none := by
    rw [hbal]
    have hdeb : debtorsOf
        [(⟨"A", 1/100, 0, 1/100⟩ : BalanceRec), ⟨"B", 0, 1/100, -(1/100)⟩] =
        [⟨"B", 0, 1/100, -(1/100)⟩] := by
      simp [debtorsOf, List.filter]
      norm_num
    have hcred : creditorsOf
        [(⟨"A", 1/100, 0, 1/100⟩ : BalanceRec), ⟨"B", 0, 1/100, -(1/100)⟩] =
        [⟨"A", 1/100, 0, 1/100⟩] := by
      simp [creditorsOf, List.filter]
      norm_num
    rw [planSettlements, hdeb, hcred]
    exact hloop fuel
  simp [settlementsEndpoint, hval, hplan]

/-! ## Loop induction and the C5 transfer-count bound -/

/-- Any property preserved by the loop body holds at the loop's result,
and the guard is false there. -/
theorem settleLoop_induction (P : SettleState → Prop)
    (hstep : ∀ st, settleCond st = true → P st → P (settleStep st)) :
    ∀ (fuel : ℕ) (st st' : SettleState),
      settleLoop fuel st = some st' → P st →
      P st' ∧ settleCond st' = false := by
  intro fuel
  induction fuel with
  | zero =>
      intro st st' h hP
      by_cases hc : settleCond st
      · rw [settleLoop, if_pos hc] at h
        exact Option.noConfusion h
      · rw [settleLoop, if_neg hc] at h
        cases h
        exact ⟨hP, Bool.of_not_eq_true hc⟩
  | succ k ih =>
      intro st st' h hP
      by_cases hc : settleCond st
      · rw [settleLoop, if_pos hc] at h
        exact ih _ _ h (hstep st hc hP)
      · rw [settleLoop, if_neg hc] at h
        cases h
        exact ⟨hP, Bool.of_not_eq_true hc⟩

/-- Invariant for the transfer-count bound: list lengths are fixed, the
emitted count is bounded by the cursor sum, and never exceeds
`lenD + lenC - 1`. -/
def countInv (lenD lenC : ℕ) (st : SettleState) : Prop :=
  st.debtors.length = lenD ∧ st.creditors.length = lenC ∧
  st.settlements.length ≤ st.i + st.j ∧
  st.settlements.length ≤ lenD + lenC - 1

/-- The loop guard, as a proposition. -/
theorem settleCond_iff (st : SettleState) :
    settleCond st = true ↔
      st.i < st.debtors.length ∧ st.j < st.creditors.length := by
  simp [settleCond]

/-- Unfolding of the loop body when a transfer is emitted. -/
theorem settleStep_emit (st : SettleState)
    (ha : min (-(st.debtors.getD st.i default).balance)
        (st.creditors.getD st.j default).balance > 0.01) :
    settleStep st =
      { debtors := st.debtors.set st.i
          { st.debtors.getD st.i default with
            balance := (st.debtors.getD st.i default).balance +
              min (-(st.debtors.getD st.i default).balance)
                (st.creditors.getD st.j default).balance }
        creditors := st.creditors.set st.j
          { st.creditors.getD st.j default with
            balance := (st.creditors.getD st.j default).balance -
              min (-(st.debtors.getD st.i default).balance)
                (st.creditors.getD st.j default).balance }
        i := if |(st.debtors.getD st.i default).balance +
            min (-(st.debtors.getD st.i default).balance)
              (st.creditors.getD st.j default).balance| < 0.01
          then st.i + 1 else st.i
        j := if |(st.creditors.getD st.j default).balance -
            min (-(st.debtors.getD st.i default).balance)
              (st.creditors.getD st.j default).balance| < 0.01
          then st.j + 1 else st.j
        settlements := st.settlements ++
          [{ from_ := (st.debtors.getD st.i default).name
             to_ := (st.creditors.getD st.j default).name
             amount := round2 (min (-(st.debtors.getD st.i default).balance)
               (st.creditors.getD st.j default).balance) }] } := by
  simp only [settleStep]
  rw [if_pos ha]

/-- Unfolding of the loop body when the matched amount is within the
`0.01` tolerance: only the cursors may move. -/
theorem settleStep_skip (st : SettleState)
    (ha : ¬ (min (-(st.debtors.getD st.i default).balance)
        (st.creditors.getD st.j default).balance > 0.01)) :
    settleStep st =
      { st with
        i := if |(st.debtors.getD st.i default).balance| < 0.01
          then st.i + 1 else st.i
        j := if |(st.creditors.getD st.j default).balance| < 0.01
          then st.j + 1 else st.j } := by
  simp only [settleStep]
  rw [if_neg ha]

/-- When a transfer is emitted its amount is `min(-d, c)`, so at least
one of the two updated balances is exactly 0 and at least one cursor
advances; the count invariant is preserved by every iteration. -/
theorem countInv_step (lenD lenC : ℕ) (st : SettleState)
    (hc : settleCond st = true) (h : countInv lenD lenC st) :
    countInv lenD lenC (settleStep st) := by
  obtain ⟨hd, hcl, hij, hbound⟩ := h
  obtain ⟨hi, hj⟩ := (settleCond_iff st).mp hc
  have hi2 : st.i < lenD := hd ▸ hi
  have hj2 : st.j < lenC := hcl ▸ hj
  by_cases ha : min (-(st.debtors.getD st.i default).balance)
      (st.creditors.getD st.j default).balance > 0.01
  · rw [settleStep_emit st ha]
    have hadv :
        |(st.debtors.getD st.i default).balance +
          min (-(st.debtors.getD st.i default).balance)
            (st.creditors.getD st.j default).balance| < 0.01 ∨
        |(st.creditors.getD st.j default).balance -
          min (-(st.debtors.getD st.i default).balance)
            (st.creditors.getD st.j default).balance| < 0.01 := by
      rcases min_choice (-(st.debtors.getD st.i default).balance)
          (st.creditors.getD st.j default).balance with hm | hm
      · left
        rw [hm]
        norm_num
      · right
        rw [hm]
        norm_num
    refine ⟨by simp [hd], by simp [hcl], ?_, ?_⟩
    · simp only [List.length_append, List.length_cons, List.length_nil]
      by_cases hb2 : |(st.debtors.getD st.i default).balance +
          min (-(st.debtors.getD st.i default).balance)
            (st.creditors.getD st.j default).balance| < (0.01 : ℚ)
      · rw [if_pos hb2]
        by_cases hb3 : |(st.creditors.getD st.j default).balance -
            min (-(st.debtors.getD st.i default).balance)
              (st.creditors.getD st.j default).balance| < (0.01 : ℚ)
        · rw [if_pos hb3]
          omega
        · rw [if_neg hb3]
          omega
      · rw [if_neg hb2]
        have hb3 : |(st.creditors.getD st.j default).balance -
            min (-(st.debtors.getD st.i default).balance)
              (st.creditors.getD st.j default).balance| < (0.01 : ℚ) := by
          rcases hadv with hb | hb
          · exact absurd hb hb2
          · exact hb
        rw [if_pos hb3]
        omega
    · simp only [List.length_append, List.length_cons, List.length_nil]
      omega
  · rw [settleStep_skip st ha]
    refine ⟨hd, hcl, ?_, hbound⟩
    show st.settlements.length ≤
      (if |(st.debtors.getD st.i default).balance| < 0.01
        then st.i + 1 else st.i) +
      (if |(st.creditors.getD st.j default).balance| < 0.01
        then st.j + 1 else st.j)
    by_cases hb2 : |(st.debtors.getD st.i default).balance| < (0.01 : ℚ) <;>
      by_cases hb3 : |(st.creditors.getD st.j default).balance| < (0.01 : ℚ)
    · rw [if_pos hb2, if_pos hb3]
      omega
    · rw [if_pos hb2, if_neg hb3]
      omega
    · rw [if_neg hb2, if_pos hb3]
      omega
    · rw [if_neg hb2, if_neg hb3]
      omega

/-- C5: the planner emits at most
`count(creditors) + count(debtors) - 1` transfers (truncated natural
subtraction: with no creditors and no debtors it emits none). -/
theorem C5_transfer_count (balances : List BalanceRec) (fuel : ℕ)
    (st : SettleState) (h : planSettlements balances fuel = some st) :
    st.settlements.length ≤
      (balances.filter (fun p => decide (p.balance > 0))).length +
        (balances.filter (fun p => decide (p.balance < 0))).length - 1 := by
  have hinit : countInv (debtorsOf balances).length
      (creditorsOf balances).length
      { debtors := debtorsOf balances
        creditors := creditorsOf balances
        i := 0
        j := 0
        settlements := [] } := by
    refine ⟨rfl, rfl, by simp, by simp⟩
  have hfinal := settleLoop_induction
    (countInv (debtorsOf balances).length (creditorsOf balances).length)
    (countInv_step _ _) fuel _ st h hinit
  have hlen := hfinal.1.2.2.2
  rw [debtorsOf, creditorsOf, List.length_mergeSort, List.length_mergeSort]
    at hlen
  omega

/-- The planner input of the 300-equal-split scenario: A paid 300, B and
C each owe 100 (`balances = [+200, -100, -100]`). -/
def scenarioBalances : List BalanceRec :=
  [⟨"A", 300, 100, 200⟩, ⟨"B", 0, 100, -100⟩, ⟨"C", 0, 100, -100⟩]

/-- Concrete run of the planner on the scenario balances: B and C each
transfer 100 to A and the loop stops with all balances zeroed. -/
theorem scenarioPlan : planSettlements scenarioBalances 10 =
      some { debtors := [⟨"B", 0, 100, 0⟩, ⟨"C", 0, 100, 0⟩]
             creditors := [⟨"A", 300, 100, 0⟩]
             i := 2
             j := 1
             settlements := [⟨"B", "A", 100⟩, ⟨"C", "A", 100⟩] } := by
    have hsort : planSettlements scenarioBalances 10 = settleLoop 10
        { debtors := [⟨"B", 0, 100, -100⟩, ⟨"C", 0, 100, -100⟩]
          creditors := [⟨"A", 300, 100, 200⟩]
          i := 0
          j := 0
          settlements := [] } := by
      rw [planSettlements]
      have hdeb : debtorsOf scenarioBalances =
          [⟨"B", 0, 100, -100⟩, ⟨"C", 0, 100, -100⟩] := by
        simp only [debtorsOf, scenarioBalances]
        norm_num [List.filter_cons, List.filter_nil, List.mergeSort]
      have hcred : creditorsOf scenarioBalances =
          [⟨"A", 300, 100, 200⟩] := by
        simp only [creditorsOf, scenarioBalances]
        norm_num [List.filter_cons, List.filter_nil, List.mergeSort]
      rw [hdeb, hcred]
    rw [hsort]
    have h1 : settleStep
        { debtors := [⟨"B", 0, 100, -100⟩, ⟨"C", 0, 100, -100⟩]
          creditors := [(⟨"A", 300, 100, 200⟩ : BalanceRec)]
          i := 0
          j := 0
          settlements := [] } =
        { debtors := [⟨"B", 0, 100, 0⟩, ⟨"C", 0, 100, -100⟩]
          creditors := [⟨"A", 300, 100, 100⟩]
          i := 1
          j := 0
          settlements := [⟨"B", "A", 100⟩] } := by
      rw [settleStep_emit _ (by norm_num)]
      simp
      norm_num [round2, round_eq]
    have h2 : settleStep
        { debtors := [⟨"B", 0, 100, 0⟩, ⟨"C", 0, 100, -100⟩]
          creditors := [(⟨"A", 300, 100, 100⟩ : BalanceRec)]
          i := 1
          j := 0
          settlements := [⟨"B", "A", 100⟩] } =
        { debtors := [⟨"B", 0, 100, 0⟩, ⟨"C", 0, 100, 0⟩]
          creditors := [⟨"A", 300, 100, 0⟩]
          i := 2
          j := 1
          settlements := [⟨"B", "A", 100⟩, ⟨"C", "A", 100⟩] } := by
      rw [settleStep_emit _ (by norm_num)]
      simp
      norm_num [round2, round_eq]
    rw [show (10 : ℕ) = 9 + 1 from rfl, settleLoop, if_pos (by simp [settleCond]), h1]
    rw [show (9 : ℕ) = 8 + 1 from rfl, settleLoop, if_pos (by simp [settleCond]), h2]
    rw [show (8 : ℕ) = 7 + 1 from rfl, settleLoop, if_neg (by simp [settleCond])]

theorem C5_transfer_count_witness :
    ∃ st, planSettlements scenarioBalances 10 = some st ∧
      st.settlements.length ≤
        (scenarioBalances.filter (fun p => decide (p.balance > 0))).length +
          (scenarioBalances.filter
            (fun p => decide (p.balance < 0))).length - 1 :=
  ⟨_, scenarioPlan, C5_transfer_count scenarioBalances 10 _ scenarioPlan⟩

/-! ## Whole-cent values

The aggregator emits only `round2` outputs, i.e. integer multiples of
`0.01`; the planner's arithmetic stays inside that set, which is what
makes the emitted (re-rounded) transfer amounts equal to the raw working
deltas. -/

/-- The value `x` is an integer number of cents. -/
def cent (x : ℚ) : Prop := ∃ k : ℤ, x = k / 100

theorem cent_round2 (x : ℚ) : cent (round2 x) := ⟨round (x * 100), rfl⟩

theorem round2_cent {x : ℚ} (h : cent x) : round2 x = x := by
  obtain ⟨k, rfl⟩ := h
  rw [round2]
  rw [div_mul_cancel₀ _ (by norm_num : (100 : ℚ) ≠ 0), round_intCast]

theorem cent_add {x y : ℚ} (hx : cent x) (hy : cent y) : cent (x + y) := by
  obtain ⟨k, rfl⟩ := hx
  obtain ⟨m, rfl⟩ := hy
  exact ⟨k + m, by push_cast; ring⟩

theorem cent_neg {x : ℚ} (hx : cent x) : cent (-x) := by
  obtain ⟨k, rfl⟩ := hx
  exact ⟨-k, by push_cast; ring⟩

theorem cent_sub {x y : ℚ} (hx : cent x) (hy : cent y) : cent (x - y) := by
  rw [sub_eq_add_neg]
  exact cent_add hx (cent_neg hy)

theorem cent_min {x y : ℚ} (hx : cent x) (hy : cent y) : cent (min x y) := by
  rcases min_choice x y with h | h <;> rw [h] <;> assumption

theorem cent_zero : cent 0 := ⟨0, by norm_num⟩

/-- A whole-cent value of magnitude below one cent is zero. -/
theorem cent_eq_zero {x : ℚ} (hx : cent x) (h : |x| < 1/100) : x = 0 := by
  obtain ⟨k, rfl⟩ := hx
  have h1 : |(k : ℚ)| < 1 := by
    rw [abs_div, abs_of_pos (by norm_num : (0:ℚ) < 100)] at h
    linarith
  have h2 : |k| < 1 := by exact_mod_cast h1
  obtain ⟨hl, hr⟩ := abs_lt.mp h2
  have h3 : k = 0 := by omega
  simp [h3]

/-- A negative whole-cent value is at most `-0.01`. -/
theorem cent_le_neg {x : ℚ} (hx : cent x) (h : x < 0) : x ≤ -(1/100) := by
  obtain ⟨k, rfl⟩ := hx
  have hkq : (k : ℚ) < 0 := by linarith
  have hk : k < 0 := by exact_mod_cast hkq
  have hk1 : k ≤ -1 := by omega
  have hq : (k : ℚ) ≤ -1 := by exact_mod_cast hk1
  linarith

/-- A positive whole-cent value is at least `0.01`. -/
theorem cent_ge_pos {x : ℚ} (hx : cent x) (h : 0 < x) : 1/100 ≤ x := by
  have := cent_le_neg (cent_neg hx) (by linarith)
  linarith

/-! ## Transfer-total bookkeeping -/

theorem outSum_eq (S : List Transfer) (n : String) :
    outSum S n =
      (S.map (fun t => if t.from_ = n then t.amount else 0)).sum := by
  rw [outSum, foldl_add_eq, zero_add]
  induction S with
  | nil => simp
  | cons t S ih =>
      by_cases h : t.from_ = n
      · simp [List.filter_cons, h, ih]
      · simp [List.filter_cons, h, ih]

theorem inSum_eq (S : List Transfer) (n : String) :
    inSum S n =
      (S.map (fun t => if t.to_ = n then t.amount else 0)).sum := by
  rw [inSum, foldl_add_eq, zero_add]
  induction S with
  | nil => simp
  | cons t S ih =>
      by_cases h : t.to_ = n
      · simp [List.filter_cons, h, ih]
      · simp [List.filter_cons, h, ih]

theorem outSum_append_single (S : List Transfer) (t : Transfer)
    (n : String) :
    outSum (S ++ [t]) n =
      outSum S n + (if t.from_ = n then t.amount else 0) := by
  simp [outSum_eq]

theorem inSum_append_single (S : List Transfer) (t : Transfer)
    (n : String) :
    inSum (S ++ [t]) n =
      inSum S n + (if t.to_ = n then t.amount else 0) := by
  simp [inSum_eq]

theorem outSum_eq_zero {S : List Transfer} {n : String}
    (h : ∀ t ∈ S, t.from_ ≠ n) : outSum S n = 0 := by
  rw [outSum_eq]
  rw [List.sum_eq_zero]
  intro x hx
  simp only [List.mem_map] at hx
  obtain ⟨t, ht, rfl⟩ := hx
  simp [h t ht]

theorem inSum_eq_zero {S : List Transfer} {n : String}
    (h : ∀ t ∈ S, t.to_ ≠ n) : inSum S n = 0 := by
  rw [inSum_eq]
  rw [List.sum_eq_zero]
  intro x hx
  simp only [List.mem_map] at hx
  obtain ⟨t, ht, rfl⟩ := hx
  simp [h t ht]

theorem cent_outSum {S : List Transfer} {n : String}
    (h : ∀ t ∈ S, cent t.amount) : cent (outSum S n) := by
  rw [outSum_eq]
  induction S with
  | nil => exact cent_zero
  | cons t S ih =>
      simp only [List.map_cons, List.sum_cons]
      refine cent_add ?_ (ih (fun u hu => h u (List.mem_cons_of_mem t hu)))
      by_cases hf : t.from_ = n
      · simpa [hf] using h t (List.mem_cons_self t S)
      · simp [hf]
        exact cent_zero

theorem cent_inSum {S : List Transfer} {n : String}
    (h : ∀ t ∈ S, cent t.amount) : cent (inSum S n) := by
  rw [inSum_eq]
  induction S with
  | nil => exact cent_zero
  | cons t S ih =>
      simp only [List.map_cons, List.sum_cons]
      refine cent_add ?_ (ih (fun u hu => h u (List.mem_cons_of_mem t hu)))
      by_cases hf : t.to_ = n
      · simpa [hf] using h t (List.mem_cons_self t S)
      · simp [hf]
        exact cent_zero

/-! ## Indexed-list helpers -/

theorem getD_mem {l : List BalanceRec} {k : ℕ} (h : k < l.length) :
    l.getD k default ∈ l := by
  rw [List.getD_eq_getElem l default h]
  exact List.getElem_mem h

theorem mem_getD {l : List BalanceRec} {b : BalanceRec} (hb : b ∈ l) :
    ∃ k, k < l.length ∧ l.getD k default = b := by
  obtain ⟨⟨k, hk⟩, rfl⟩ := List.mem_iff_get.mp hb
  exact ⟨k, hk, by rw [List.getD_eq_getElem l default hk,
    List.get_eq_getElem]⟩

theorem getD_set_self (l : List BalanceRec) (i : ℕ) (x : BalanceRec)
    (h : i < l.length) : (l.set i x).getD i default = x := by
  rw [List.getD_eq_getElem?_getD, List.getElem?_set_self h]
  rfl

theorem getD_set_ne (l : List BalanceRec) (i k : ℕ) (x : BalanceRec)
    (hne : i ≠ k) : (l.set i x).getD k default = l.getD k default := by
  rw [List.getD_eq_getElem?_getD, List.getElem?_set_ne hne,
    ← List.getD_eq_getElem?_getD]

/-- In a list whose names are pairwise distinct, entries at different
positions have different names. -/
theorem name_ne_of_nodup (l : List BalanceRec)
    (h : (l.map BalanceRec.name).Nodup) (k1 k2 : ℕ)
    (h1 : k1 < l.length) (h2 : k2 < l.length) (hne : k1 ≠ k2) :
    (l.getD k1 default).name ≠ (l.getD k2 default).name := by
  intro heq
  apply hne
  have hm1 : k1 < (l.map BalanceRec.name).length := by simpa
  have hm2 : k2 < (l.map BalanceRec.name).length := by simpa
  have hg : (l.map BalanceRec.name).get ⟨k1, hm1⟩ =
      (l.map BalanceRec.name).get ⟨k2, hm2⟩ := by
    simp only [List.get_eq_getElem, List.getElem_map]
    rw [← List.getD_eq_getElem l default h1,
      ← List.getD_eq_getElem l default h2]
    exact heq
  have := List.Nodup.get_inj_iff h |>.mp hg
  exact congrArg Fin.val this

/-- Lookup by name (`find?`) in a name-distinct list returns the entry at the
position carrying that name. -/
theorem find?_name_of_nodup (l : List BalanceRec)
    (h : (l.map BalanceRec.name).Nodup) (k : ℕ) (hk : k < l.length) :
    l.find? (fun r => r.name == (l.getD k default).name) =
      some (l.getD k default) := by
  induction l generalizing k with
  | nil => simp at hk
  | cons b l ih =>
      rcases k with _ | k
      · simp
      · have hk2 : k < l.length := by simpa using hk
        have hnd : (List.map BalanceRec.name l).Nodup := by
          simp only [List.map_cons, List.nodup_cons] at h
          exact h.2
        have hbn : b.name ≠ (l.getD k default).name := by
          simp only [List.map_cons, List.nodup_cons] at h
          intro heq
          exact h.1 (heq ▸ List.mem_map_of_mem BalanceRec.name
            (getD_mem hk2))
        have hgd : (b :: l).getD (k + 1) default = l.getD k default := rfl
        rw [hgd, List.find?_cons_of_neg _ (by simpa using hbn)]
        exact ih hnd k hk2

theorem sum_map_set (l : List BalanceRec) (k : ℕ) (x : BalanceRec)
    (hk : k < l.length) :
    ((l.set k x).map BalanceRec.balance).sum =
      (l.map BalanceRec.balance).sum -
        (l.getD k default).balance + x.balance := by
  induction l generalizing k with
  | nil => simp at hk
  | cons b l ih =>
      rcases k with _ | k
      · simp [List.set]
        ring
      · have hk2 : k < l.length := by simpa using hk
        simp only [List.set, List.map_cons, List.sum_cons]
        rw [ih k hk2]
        have : (b :: l).getD (k + 1) default = l.getD k default := rfl
        rw [this]
        ring

/-- Every list's balances sum to the balances of its creditors plus those
of its debtors (zero-balance entries contribute nothing). -/
theorem sum_filter_split (l : List BalanceRec) :
    ((l.filter (fun p => decide (p.balance < 0))).map
        BalanceRec.balance).sum +
      ((l.filter (fun p => decide (p.balance > 0))).map
        BalanceRec.balance).sum =
      (l.map BalanceRec.balance).sum := by
  induction l with
  | nil => simp
  | cons b l ih =>
      rcases lt_trichotomy b.balance 0 with hb | hb | hb
      · have h1 : (fun p : BalanceRec => decide (p.balance < 0)) b = true :=
          by simpa using hb
        have h2 : (fun p : BalanceRec => decide (p.balance > 0)) b = false :=
          by simp; linarith
        simp only [List.filter_cons, h1, h2, if_pos, if_neg,
          Bool.false_eq_true, List.map_cons, List.sum_cons, ite_true,
          ite_false]
        rw [← ih]
        ring
      · have h1 : (fun p : BalanceRec => decide (p.balance < 0)) b = false :=
          by simp [hb]
        have h2 : (fun p : BalanceRec => decide (p.balance > 0)) b = false :=
          by simp [hb]
        simp only [List.filter_cons, h1, h2, Bool.false_eq_true,
          List.map_cons, List.sum_cons, ite_false]
        rw [← ih, hb]
        ring
      · have h1 : (fun p : BalanceRec => decide (p.balance < 0)) b = false :=
          by simp; linarith
        have h2 : (fun p : BalanceRec => decide (p.balance > 0)) b = true :=
          by simpa using hb
        simp only [List.filter_cons, h1, h2, Bool.false_eq_true,
          List.map_cons, List.sum_cons, ite_true, ite_false]
        rw [← ih]
        ring

/-- A list whose entries (by index) all have zero balance has balance
sum zero. -/
theorem sum_map_balance_zero (l : List BalanceRec)
    (h : ∀ k, k < l.length → (l.getD k default).balance = 0) :
    (l.map BalanceRec.balance).sum = 0 := by
  rw [List.sum_eq_zero]
  intro x hx
  simp only [List.mem_map] at hx
  obtain ⟨b, hb, rfl⟩ := hx
  obtain ⟨k, hk, rfl⟩ := mem_getD hb
  exact h k hk

/-! ## The settlement-loop invariant

Relative to the initial sorted arrays `D0` (debtors) and `C0`
(creditors): positions before the cursors have been zeroed, positions
after them are untouched, the cursor positions hold at least one cent of
remaining magnitude, every entry equals its initial record with the
balance shifted by exactly its emitted transfer totals, and the total
balance is conserved. -/
structure LoopInv (D0 C0 : List BalanceRec) (st : SettleState) : Prop where
  dlen : st.debtors.length = D0.length
  clen : st.creditors.length = C0.length
  ile : st.i ≤ D0.length
  jle : st.j ≤ C0.length
  dbal : ∀ k, k < D0.length →
    st.debtors.getD k default =
      { D0.getD k default with
        balance := (D0.getD k default).balance +
          outSum st.settlements (D0.getD k default).name }
  cbal : ∀ k, k < C0.length →
    st.creditors.getD k default =
      { C0.getD k default with
        balance := (C0.getD k default).balance -
          inSum st.settlements (C0.getD k default).name }
  dzero : ∀ k, k < st.i → (st.debtors.getD k default).balance = 0
  czero : ∀ k, k < st.j → (st.creditors.getD k default).balance = 0
  dfront : st.i < D0.length →
    (st.debtors.getD st.i default).balance ≤ -(1/100)
  cfront : st.j < C0.length →
    1/100 ≤ (st.creditors.getD st.j default).balance
  duntouched : ∀ k, st.i < k →
    st.debtors.getD k default = D0.getD k default
  cuntouched : ∀ k, st.j < k →
    st.creditors.getD k default = C0.getD k default
  scents : ∀ t ∈ st.settlements, cent t.amount
  snames : ∀ t ∈ st.settlements,
    t.from_ ∈ D0.map BalanceRec.name ∧ t.to_ ∈ C0.map BalanceRec.name
  bsum : (st.debtors.map BalanceRec.balance).sum +
      (st.creditors.map BalanceRec.balance).sum =
    (D0.map BalanceRec.balance).sum + (C0.map BalanceRec.balance).sum

/-- The invariant holds on entry to the loop. -/
theorem loopInv_init (D0 C0 : List BalanceRec)
    (hD0 : ∀ b ∈ D0, b.balance < 0 ∧ cent b.balance)
    (hC0 : ∀ b ∈ C0, 0 < b.balance ∧ cent b.balance) :
    LoopInv D0 C0
      { debtors := D0, creditors := C0, i := 0, j := 0,
        settlements := [] } := by
  have houtnil : ∀ n, outSum [] n = 0 := fun n => rfl
  have hinnil : ∀ n, inSum [] n = 0 := fun n => rfl
  refine ⟨rfl, rfl, Nat.zero_le _, Nat.zero_le _, ?_, ?_, ?_, ?_, ?_, ?_,
    ?_, ?_, ?_, ?_, rfl⟩
  · intro k hk
    simp [houtnil]
  · intro k hk
    simp [hinnil]
  · intro k hk
    simp at hk
  · intro k hk
    simp at hk
  · intro h0
    exact cent_le_neg (hD0 _ (getD_mem h0)).2 (hD0 _ (getD_mem h0)).1
  · intro h0
    exact cent_ge_pos (hC0 _ (getD_mem h0)).2 (hC0 _ (getD_mem h0)).1
  · intro k _
    rfl
  · intro k _
    rfl
  · intro t ht
    simp at ht
  · intro t ht
    simp at ht

/-- Numeral bridge between the source's `0.01` literal and `1/100`. -/
theorem hundredth : (0.01 : ℚ) = 1/100 := by norm_num

/-- Component-wise equality of balance records. -/
theorem balanceRec_ext (r s : BalanceRec) (h1 : r.name = s.name)
    (h2 : r.paid = s.paid) (h3 : r.owes = s.owes)
    (h4 : r.balance = s.balance) : r = s := by
  cases r
  cases s
  simp_all

/-- The loop body preserves the invariant: a transfer moves exactly its
raw amount between the two front balances and appends the same (already
whole-cent, hence unchanged by re-rounding) amount to the emitted list;
a skipped iteration moves nothing at all (both fronts hold at least one
cent, so neither cursor can advance). -/
theorem loopInv_step (D0 C0 : List BalanceRec)
    (hD0 : ∀ b ∈ D0, b.balance < 0 ∧ cent b.balance)
    (hC0 : ∀ b ∈ C0, 0 < b.balance ∧ cent b.balance)
    (hnames : (D0.map BalanceRec.name ++ C0.map BalanceRec.name).Nodup)
    (st : SettleState) (hc : settleCond st = true)
    (h : LoopInv D0 C0 st) : LoopInv D0 C0 (settleStep st) := by
  obtain ⟨hndD, hndC, hdisj⟩ := List.nodup_append.mp hnames
  have hi : st.i < D0.length := h.dlen ▸ ((settleCond_iff st).mp hc).1
  have hj : st.j < C0.length := h.clen ▸ ((settleCond_iff st).mp hc).2
  have hid : st.i < st.debtors.length := h.dlen ▸ hi
  have hjc : st.j < st.creditors.length := h.clen ▸ hj
  set d := st.debtors.getD st.i default with hd_def
  set c := st.creditors.getD st.j default with hc_def
  set a := min (-d.balance) c.balance with ha_def
  have hdb : d = { D0.getD st.i default with
      balance := (D0.getD st.i default).balance +
        outSum st.settlements (D0.getD st.i default).name } :=
    h.dbal st.i hi
  have hcb : c = { C0.getD st.j default with
      balance := (C0.getD st.j default).balance -
        inSum st.settlements (C0.getD st.j default).name } :=
    h.cbal st.j hj
  have hdname : d.name = (D0.getD st.i default).name := by rw [hdb]
  have hcname : c.name = (C0.getD st.j default).name := by rw [hcb]
  have hdpaid : d.paid = (D0.getD st.i default).paid := by rw [hdb]
  have hcpaid : c.paid = (C0.getD st.j default).paid := by rw [hcb]
  have hdowes : d.owes = (D0.getD st.i default).owes := by rw [hdb]
  have hcowes : c.owes = (C0.getD st.j default).owes := by rw [hcb]
  have hdbalval : d.balance = (D0.getD st.i default).balance +
      outSum st.settlements (D0.getD st.i default).name := by rw [hdb]
  have hcbalval : c.balance = (C0.getD st.j default).balance -
      inSum st.settlements (C0.getD st.j default).name := by rw [hcb]
  have hDicent : cent (D0.getD st.i default).balance :=
    (hD0 _ (getD_mem hi)).2
  have hCjcent : cent (C0.getD st.j default).balance :=
    (hC0 _ (getD_mem hj)).2
  have hdcent : cent d.balance := by
    rw [hdbalval]
    exact cent_add hDicent (cent_outSum h.scents)
  have hccent : cent c.balance := by
    rw [hcbalval]
    exact cent_sub hCjcent (cent_inSum h.scents)
  have hdle : d.balance ≤ -(1/100) := h.dfront hi
  have hcge : 1/100 ≤ c.balance := h.cfront hj
  have hage : 1/100 ≤ a := le_min (by linarith) hcge
  have hacent : cent a := cent_min (cent_neg hdcent) hccent
  have haled : a ≤ -d.balance := min_le_left _ _
  have halec : a ≤ c.balance := min_le_right _ _
  have har : round2 a = a := round2_cent hacent
  by_cases ha : a > 0.01
  · rw [settleStep_emit st ha, har]
    refine ⟨?_, ?_, ?_, ?_, ?_, ?_, ?_, ?_, ?_, ?_, ?_, ?_, ?_, ?_, ?_⟩
    · show (st.debtors.set st.i _).length = D0.length
      simp [h.dlen]
    · show (st.creditors.set st.j _).length = C0.length
      simp [h.clen]
    · show (if |d.balance + a| < 0.01 then st.i + 1 else st.i) ≤ D0.length
      split_ifs <;> omega
    · show (if |c.balance - a| < 0.01 then st.j + 1 else st.j) ≤ C0.length
      split_ifs <;> omega
    · intro k hk
      show (st.debtors.set st.i
          { d with balance := d.balance + a }).getD k default =
        { D0.getD k default with
          balance := (D0.getD k default).balance +
            outSum (st.settlements ++
                [{ from_ := d.name, to_ := c.name, amount := a }])
              (D0.getD k default).name }
      rw [outSum_append_single]
      by_cases hki : k = st.i
      · subst hki
        rw [getD_set_self _ _ _ hid]
        have hcond : ({ from_ := d.name, to_ := c.name, amount := a } :
            Transfer).from_ = (D0.getD st.i default).name := hdname
        rw [if_pos hcond]
        refine balanceRec_ext _ _ hdname hdpaid hdowes ?_
        show d.balance + a = (D0.getD st.i default).balance +
          (outSum st.settlements (D0.getD st.i default).name + a)
        rw [hdbalval]
        ring
      · rw [getD_set_ne _ _ _ _ (fun hh => hki hh.symm)]
        have hcond : ¬ ({ from_ := d.name, to_ := c.name, amount := a } :
            Transfer).from_ = (D0.getD k default).name := by
          show ¬ d.name = (D0.getD k default).name
          rw [hdname]
          exact name_ne_of_nodup D0 hndD st.i k hi hk
            (fun hh => hki hh.symm)
        rw [if_neg hcond, add_zero]
        exact h.dbal k hk
    · intro k hk
      show (st.creditors.set st.j
          { c with balance := c.balance - a }).getD k default =
        { C0.getD k default with
          balance := (C0.getD k default).balance -
            inSum (st.settlements ++
                [{ from_ := d.name, to_ := c.name, amount := a }])
              (C0.getD k default).name }
      rw [inSum_append_single]
      by_cases hkj : k = st.j
      · subst hkj
        rw [getD_set_self _ _ _ hjc]
        have hcond : ({ from_ := d.name, to_ := c.name, amount := a } :
            Transfer).to_ = (C0.getD st.j default).name := hcname
        rw [if_pos hcond]
        refine balanceRec_ext _ _ hcname hcpaid hcowes ?_
        show c.balance - a = (C0.getD st.j default).balance -
          (inSum st.settlements (C0.getD st.j default).name + a)
        rw [hcbalval]
        ring
      · rw [getD_set_ne _ _ _ _ (fun hh => hkj hh.symm)]
        have hcond : ¬ ({ from_ := d.name, to_ := c.name, amount := a } :
            Transfer).to_ = (C0.getD k default).name := by
          show ¬ c.name = (C0.getD k default).name
          rw [hcname]
          exact name_ne_of_nodup C0 hndC st.j k hj hk
            (fun hh => hkj hh.symm)
        rw [if_neg hcond, add_zero]
        exact h.cbal k hk
    · intro k hk
      replace hk : k < (if |d.balance + a| < 0.01 then st.i + 1 else st.i) :=
        hk
      show ((st.debtors.set st.i
          { d with balance := d.balance + a }).getD k default).balance = 0
      by_cases hbd : |d.balance + a| < (0.01 : ℚ)
      · rw [if_pos hbd] at hk
        by_cases hki : k = st.i
        · subst hki
          rw [getD_set_self _ _ _ hid]
          show d.balance + a = 0
          rw [hundredth] at hbd
          exact cent_eq_zero (cent_add hdcent hacent) hbd
        · rw [getD_set_ne _ _ _ _ (fun hh => hki hh.symm)]
          exact h.dzero k (by omega)
      · rw [if_neg hbd] at hk
        rw [getD_set_ne _ _ _ _ (by omega : st.i ≠ k)]
        exact h.dzero k hk
    · intro k hk
      replace hk : k < (if |c.balance - a| < 0.01 then st.j + 1 else st.j) :=
        hk
      show ((st.creditors.set st.j
          { c with balance := c.balance - a }).getD k default).balance = 0
      by_cases hbc : |c.balance - a| < (0.01 : ℚ)
      · rw [if_pos hbc] at hk
        by_cases hkj : k = st.j
        · subst hkj
          rw [getD_set_self _ _ _ hjc]
          show c.balance - a = 0
          rw [hundredth] at hbc
          exact cent_eq_zero (cent_sub hccent hacent) hbc
        · rw [getD_set_ne _ _ _ _ (fun hh => hkj hh.symm)]
          exact h.czero k (by omega)
      · rw [if_neg hbc] at hk
        rw [getD_set_ne _ _ _ _ (by omega : st.j ≠ k)]
        exact h.czero k hk
    · intro hlt
      replace hlt : (if |d.balance + a| < 0.01 then st.i + 1 else st.i) <
          D0.length := hlt
      by_cases hbd : |d.balance + a| < (0.01 : ℚ)
      · rw [if_pos hbd] at hlt
        show ((st.debtors.set st.i { d with balance := d.balance + a }).getD
          (if |d.balance + a| < 0.01 then st.i + 1 else st.i)
            default).balance ≤ -(1/100)
        rw [if_pos hbd, getD_set_ne _ _ _ _ (by omega : st.i ≠ st.i + 1),
          h.duntouched (st.i + 1) (by omega)]
        exact cent_le_neg (hD0 _ (getD_mem hlt)).2 (hD0 _ (getD_mem hlt)).1
      · rw [if_neg hbd] at hlt
        show ((st.debtors.set st.i { d with balance := d.balance + a }).getD
          (if |d.balance + a| < 0.01 then st.i + 1 else st.i)
            default).balance ≤ -(1/100)
        rw [if_neg hbd, getD_set_self _ _ _ hid]
        show d.balance + a ≤ -(1/100)
        have hle0 : d.balance + a ≤ 0 := by linarith
        have habs : |d.balance + a| = -(d.balance + a) := abs_of_nonpos hle0
        rw [hundredth] at hbd
        push_neg at hbd
        rw [habs] at hbd
        linarith
    · intro hlt
      replace hlt : (if |c.balance - a| < 0.01 then st.j + 1 else st.j) <
          C0.length := hlt
      by_cases hbc : |c.balance - a| < (0.01 : ℚ)
      · rw [if_pos hbc] at hlt
        show ((st.creditors.set st.j { c with balance := c.balance - a }).getD
          (if |c.balance - a| < 0.01 then st.j + 1 else st.j)
            default).balance ≥ 1/100
        rw [if_pos hbc, getD_set_ne _ _ _ _ (by omega : st.j ≠ st.j + 1),
          h.cuntouched (st.j + 1) (by omega)]
        exact cent_ge_pos (hC0 _ (getD_mem hlt)).2 (hC0 _ (getD_mem hlt)).1
      · rw [if_neg hbc] at hlt
        show ((st.creditors.set st.j { c with balance := c.balance - a }).getD
          (if |c.balance - a| < 0.01 then st.j + 1 else st.j)
            default).balance ≥ 1/100
        rw [if_neg hbc, getD_set_self _ _ _ hjc]
        show c.balance - a ≥ 1/100
        have hge0 : 0 ≤ c.balance - a := by linarith
        have habs : |c.balance - a| = c.balance - a := abs_of_nonneg hge0
        rw [hundredth] at hbc
        push_neg at hbc
        rw [habs] at hbc
        linarith
    · intro k hk
      replace hk : (if |d.balance + a| < 0.01 then st.i + 1 else st.i) < k :=
        hk
      have hik : st.i < k := by
        by_cases hbd : |d.balance + a| < (0.01 : ℚ)
        · rw [if_pos hbd] at hk
          omega
        · rw [if_neg hbd] at hk
          omega
      show (st.debtors.set st.i
          { d with balance := d.balance + a }).getD k default =
        D0.getD k default
      rw [getD_set_ne _ _ _ _ (by omega : st.i ≠ k)]
      exact h.duntouched k hik
    · intro k hk
      replace hk : (if |c.balance - a| < 0.01 then st.j + 1 else st.j) < k :=
        hk
      have hjk : st.j < k := by
        by_cases hbc : |c.balance - a| < (0.01 : ℚ)
        · rw [if_pos hbc] at hk
          omega
        · rw [if_neg hbc] at hk
          omega
      show (st.creditors.set st.j
          { c with balance := c.balance - a }).getD k default =
        C0.getD k default
      rw [getD_set_ne _ _ _ _ (by omega : st.j ≠ k)]
      exact h.cuntouched k hjk
    · intro t ht
      replace ht : t ∈ st.settlements ++
          [{ from_ := d.name, to_ := c.name, amount := a }] := ht
      rcases List.mem_append.mp ht with hold | hnew
      · exact h.scents t hold
      · have ht2 : t = { from_ := d.name, to_ := c.name, amount := a } := by
          simpa using hnew
        rw [ht2]
        exact hacent
    · intro t ht
      replace ht : t ∈ st.settlements ++
          [{ from_ := d.name, to_ := c.name, amount := a }] := ht
      rcases List.mem_append.mp ht with hold | hnew
      · exact h.snames t hold
      · have ht2 : t = { from_ := d.name, to_ := c.name, amount := a } := by
          simpa using hnew
        rw [ht2]
        constructor
        · show d.name ∈ D0.map BalanceRec.name
          rw [hdname]
          exact List.mem_map_of_mem _ (getD_mem hi)
        · show c.name ∈ C0.map BalanceRec.name
          rw [hcname]
          exact List.mem_map_of_mem _ (getD_mem hj)
    · show ((st.debtors.set st.i
          { d with balance := d.balance + a }).map BalanceRec.balance).sum +
        ((st.creditors.set st.j
          { c with balance := c.balance - a }).map BalanceRec.balance).sum =
        (D0.map BalanceRec.balance).sum + (C0.map BalanceRec.balance).sum
      rw [sum_map_set _ _ _ hid, sum_map_set _ _ _ hjc]
      have hb := h.bsum
      show (st.debtors.map BalanceRec.balance).sum - d.balance +
          (d.balance + a) +
        ((st.creditors.map BalanceRec.balance).sum - c.balance +
          (c.balance - a)) = _
      linarith
  · have hd01 : ¬ |d.balance| < (0.01 : ℚ) := by
      rw [hundredth, abs_of_nonpos (by linarith : d.balance ≤ 0)]
      intro hcon
      linarith
    have hc01 : ¬ |c.balance| < (0.01 : ℚ) := by
      rw [hundredth, abs_of_pos (by linarith : (0:ℚ) < c.balance)]
      intro hcon
      linarith
    rw [settleStep_skip st ha, if_neg hd01, if_neg hc01]
    exact h

theorem sum_map_neg (l : List ℚ) : (l.map (fun x => -x)).sum = -l.sum := by
  induction l with
  | nil => simp
  | cons x l ih =>
      simp only [List.map_cons, List.sum_cons, ih]
      ring

/-- Running the loop from its entry state preserves the invariant and
falsifies the guard. -/
theorem loopInv_run (D0 C0 : List BalanceRec)
    (hD0 : ∀ b ∈ D0, b.balance < 0 ∧ cent b.balance)
    (hC0 : ∀ b ∈ C0, 0 < b.balance ∧ cent b.balance)
    (hnames : (D0.map BalanceRec.name ++ C0.map BalanceRec.name).Nodup)
    (fuel : ℕ) (st' : SettleState)
    (h : settleLoop fuel
      { debtors := D0, creditors := C0, i := 0, j := 0,
        settlements := [] } = some st') :
    LoopInv D0 C0 st' ∧ settleCond st' = false :=
  settleLoop_induction _ (loopInv_step D0 C0 hD0 hC0 hnames) fuel _ st' h
    (loopInv_init D0 C0 hD0 hC0)

/-- When the loop ends and the input balances sum to zero, every working
balance in both arrays has been driven exactly to zero. -/
theorem exit_all_zero (D0 C0 : List BalanceRec)
    (hD0 : ∀ b ∈ D0, b.balance < 0 ∧ cent b.balance)
    (hC0 : ∀ b ∈ C0, 0 < b.balance ∧ cent b.balance)
    (hsum : (D0.map BalanceRec.balance).sum +
      (C0.map BalanceRec.balance).sum = 0)
    (st' : SettleState) (hInv : LoopInv D0 C0 st')
    (hcond : settleCond st' = false) :
    (∀ k, k < D0.length → (st'.debtors.getD k default).balance = 0) ∧
    (∀ k, k < C0.length → (st'.creditors.getD k default).balance = 0) := by
  have hnot : ¬ (st'.i < st'.debtors.length ∧
      st'.j < st'.creditors.length) := by
    rw [← settleCond_iff]
    simp [hcond]
  rw [hInv.dlen, hInv.clen] at hnot
  have hile := hInv.ile
  have hjle := hInv.jle
  have hends : st'.i = D0.length ∨ st'.j = C0.length := by omega
  rcases hends with hiend | hjend
  · have hdz : ∀ k, k < D0.length →
        (st'.debtors.getD k default).balance = 0 :=
      fun k hk => hInv.dzero k (by omega)
    refine ⟨hdz, ?_⟩
    have hdsum : (st'.debtors.map BalanceRec.balance).sum = 0 :=
      sum_map_balance_zero _ (fun k hk => hdz k (hInv.dlen ▸ hk))
    have hcsum : (st'.creditors.map BalanceRec.balance).sum = 0 := by
      have hb := hInv.bsum
      linarith
    have hjend : st'.j = C0.length := by
      by_contra hne
      have hjlt : st'.j < C0.length := lt_of_le_of_ne hInv.jle hne
      have hfront := hInv.cfront hjlt
      have hnonneg : ∀ x ∈ st'.creditors.map BalanceRec.balance, 0 ≤ x := by
        intro x hx
        simp only [List.mem_map] at hx
        obtain ⟨b, hb, rfl⟩ := hx
        obtain ⟨k, hk, rfl⟩ := mem_getD hb
        have hkC : k < C0.length := hInv.clen ▸ hk
        rcases lt_trichotomy k st'.j with hlt | heq | hgt
        · rw [hInv.czero k hlt]
        · subst heq
          linarith [hInv.cfront hkC]
        · rw [hInv.cuntouched k hgt]
          exact le_of_lt (hC0 _ (getD_mem hkC)).1
      have hmem : (st'.creditors.getD st'.j default).balance ∈
          st'.creditors.map BalanceRec.balance :=
        List.mem_map_of_mem _ (getD_mem (hInv.clen ▸ hjlt))
      have hle := List.single_le_sum hnonneg _ hmem
      rw [hcsum] at hle
      linarith
    exact fun k hk => hInv.czero k (by omega)
  · have hcz : ∀ k, k < C0.length →
        (st'.creditors.getD k default).balance = 0 :=
      fun k hk => hInv.czero k (by omega)
    refine ⟨?_, hcz⟩
    have hcsum : (st'.creditors.map BalanceRec.balance).sum = 0 :=
      sum_map_balance_zero _ (fun k hk => hcz k (hInv.clen ▸ hk))
    have hdsum : (st'.debtors.map BalanceRec.balance).sum = 0 := by
      have hb := hInv.bsum
      linarith
    have hiend : st'.i = D0.length := by
      by_contra hne
      have hilt : st'.i < D0.length := lt_of_le_of_ne hInv.ile hne
      have hfront := hInv.dfront hilt
      have hnonpos : ∀ x ∈ st'.debtors.map BalanceRec.balance, x ≤ 0 := by
        intro x hx
        simp only [List.mem_map] at hx
        obtain ⟨b, hb, rfl⟩ := hx
        obtain ⟨k, hk, rfl⟩ := mem_getD hb
        have hkD : k < D0.length := hInv.dlen ▸ hk
        rcases lt_trichotomy k st'.i with hlt | heq | hgt
        · rw [hInv.dzero k hlt]
        · subst heq
          linarith [hInv.dfront hkD]
        · rw [hInv.duntouched k hgt]
          exact le_of_lt (hD0 _ (getD_mem hkD)).1
      have hnonneg : ∀ x ∈ (st'.debtors.map BalanceRec.balance).map
          (fun x => -x), 0 ≤ x := by
        intro x hx
        obtain ⟨y, hy, rfl⟩ := List.mem_map.mp hx
        have := hnonpos y hy
        linarith
      have hmem : -((st'.debtors.getD st'.i default).balance) ∈
          (st'.debtors.map BalanceRec.balance).map (fun x => -x) :=
        List.mem_map_of_mem _
          (List.mem_map_of_mem _ (getD_mem (hInv.dlen ▸ hilt)))
      have hle := List.single_le_sum hnonneg _ hmem
      rw [sum_map_neg, hdsum] at hle
      linarith
    exact fun k hk => hInv.dzero k (by omega)

/-- The filtered-and-sorted planner inputs inherit the sign, whole-cent
and distinct-name properties of the aggregator's output. -/
theorem initial_lists_ok (balances : List BalanceRec)
    (hnd : (balances.map BalanceRec.name).Nodup)
    (hcent : ∀ b ∈ balances, cent b.balance) :
    (∀ b ∈ debtorsOf balances, b.balance < 0 ∧ cent b.balance) ∧
    (∀ b ∈ creditorsOf balances, 0 < b.balance ∧ cent b.balance) ∧
    ((debtorsOf balances).map BalanceRec.name ++
      (creditorsOf balances).map BalanceRec.name).Nodup := by
  have hpermD : (debtorsOf balances).Perm
      (balances.filter (fun p => decide (p.balance < 0))) :=
    List.mergeSort_perm _ _
  have hpermC : (creditorsOf balances).Perm
      (balances.filter (fun p => decide (p.balance > 0))) :=
    List.mergeSort_perm _ _
  have hmemD : ∀ b ∈ debtorsOf balances, b ∈ balances ∧ b.balance < 0 := by
    intro b hb
    have h2 := List.mem_filter.mp (hpermD.mem_iff.mp hb)
    exact ⟨h2.1, by simpa using h2.2⟩
  have hmemC : ∀ b ∈ creditorsOf balances, b ∈ balances ∧ 0 < b.balance := by
    intro b hb
    have h2 := List.mem_filter.mp (hpermC.mem_iff.mp hb)
    exact ⟨h2.1, by simpa using h2.2⟩
  refine ⟨fun b hb => ⟨(hmemD b hb).2, hcent b (hmemD b hb).1⟩,
    fun b hb => ⟨(hmemC b hb).2, hcent b (hmemC b hb).1⟩, ?_⟩
  rw [List.nodup_append]
  refine ⟨?_, ?_, ?_⟩
  · rw [List.Perm.nodup_iff (hpermD.map BalanceRec.name)]
    exact List.Nodup.sublist
      ((List.filter_sublist balances).map BalanceRec.name) hnd
  · rw [List.Perm.nodup_iff (hpermC.map BalanceRec.name)]
    exact List.Nodup.sublist
      ((List.filter_sublist balances).map BalanceRec.name) hnd
  · intro n hnD hnC
    obtain ⟨b1, hb1, rfl⟩ := List.mem_map.mp hnD
    obtain ⟨b2, hb2, heq⟩ := List.mem_map.mp hnC
    have h1 := hmemD b1 hb1
    have h2 := hmemC b2 hb2
    have hbeq : b2 = b1 := List.inj_on_of_nodup_map hnd h2.1 h1.1 heq
    rw [hbeq] at h2
    linarith [h1.2, h2.2]

/-- The planner inputs carry the whole balance sum (zero-balance records
are dropped but contribute nothing). -/
theorem initial_sum (balances : List BalanceRec) :
    ((debtorsOf balances).map BalanceRec.balance).sum +
      ((creditorsOf balances).map BalanceRec.balance).sum =
    (balances.map BalanceRec.balance).sum := by
  have h1 : ((debtorsOf balances).map BalanceRec.balance).sum =
      ((balances.filter (fun p => decide (p.balance < 0))).map
        BalanceRec.balance).sum :=
    ((List.mergeSort_perm _ _).map BalanceRec.balance).sum_eq
  have h2 : ((creditorsOf balances).map BalanceRec.balance).sum =
      ((balances.filter (fun p => decide (p.balance > 0))).map
        BalanceRec.balance).sum :=
    ((List.mergeSort_perm _ _).map BalanceRec.balance).sum_eq
  rw [h1, h2, sum_filter_split]

/-- A name carried by a debtor-side record is never a transfer receiver,
and symmetrically; zero-balance names appear on neither side. -/
theorem planSettlements_eq (balances : List BalanceRec) (fuel : ℕ) :
    planSettlements balances fuel =
      settleLoop fuel
        { debtors := debtorsOf balances, creditors := creditorsOf balances,
          i := 0, j := 0, settlements := [] } := rfl

/-- C3 (counterexample): on the single-debtor input `[{A, balance -5}]`
the planner terminates immediately with no transfers (there is no
creditor), and A's residual under the claim's formula
(initial − outgoing + incoming) is `-5`, far outside the `< 0.01`
bound. -/
theorem C3_counterexample :
    planSettlements [⟨"A", 0, 5, -5⟩] 1 =
      some { debtors := [⟨"A", 0, 5, -5⟩], creditors := [], i := 0, j := 0,
             settlements := [] } ∧
    ¬ |(-5 : ℚ) - outSum [] "A" + inSum [] "A"| < 0.01 := by
  constructor
  · rw [planSettlements_eq]
    have hdeb : debtorsOf [(⟨"A", 0, 5, -5⟩ : BalanceRec)] =
        [⟨"A", 0, 5, -5⟩] := by
      simp only [debtorsOf]
      norm_num [List.filter_cons, List.filter_nil, List.mergeSort]
    have hcred : creditorsOf [(⟨"A", 0, 5, -5⟩ : BalanceRec)] = [] := by
      simp only [creditorsOf]
      norm_num [List.filter_cons, List.filter_nil, List.mergeSort]
    rw [hdeb, hcred]
    rw [show (1 : ℕ) = 0 + 1 from rfl, settleLoop,
      if_neg (by simp [settleCond])]
  · have h1 : outSum [] "A" = 0 := rfl
    have h2 : inSum [] "A" = 0 := rfl
    rw [h1, h2]
    norm_num

/-- C3 (amended): for 2-decimal balances with pairwise-distinct names
summing to zero, if the planner's loop terminates then applying its
transfers (outgoing raises the payer's balance toward zero, incoming
lowers the receiver's) leaves every person at exactly zero — in
particular under the 0.01 tolerance. -/
theorem C3_amended (balances : List BalanceRec) (fuel : ℕ)
    (st : SettleState)
    (hnd : (balances.map BalanceRec.name).Nodup)
    (hcent : ∀ b ∈ balances, cent b.balance)
    (hsum : (balances.map BalanceRec.balance).sum = 0)
    (h : planSettlements balances fuel = some st) :
    ∀ b ∈ balances,
      b.balance + outSum st.settlements b.name -
          inSum st.settlements b.name = 0 ∧
      |b.balance + outSum st.settlements b.name -
          inSum st.settlements b.name| < 0.01 := by
  obtain ⟨hD0, hC0, hnames⟩ := initial_lists_ok balances hnd hcent
  rw [planSettlements_eq] at h
  obtain ⟨hInv, hcond⟩ :=
    loopInv_run (debtorsOf balances) (creditorsOf balances) hD0 hC0 hnames
      fuel st h
  have hsum0 : ((debtorsOf balances).map BalanceRec.balance).sum +
      ((creditorsOf balances).map BalanceRec.balance).sum = 0 := by
    rw [initial_sum balances, hsum]
  obtain ⟨hdz, hcz⟩ := exit_all_zero _ _ hD0 hC0 hsum0 st hInv hcond
  obtain ⟨hndD, hndC, hdisj⟩ := List.nodup_append.mp hnames
  have hmain : ∀ b ∈ balances,
      b.balance + outSum st.settlements b.name -
        inSum st.settlements b.name = 0 := by
    intro b hb
    rcases lt_trichotomy b.balance 0 with hneg | hzero | hpos
    · have hbD : b ∈ debtorsOf balances :=
        ((List.mergeSort_perm _ _).mem_iff).mpr
          (List.mem_filter.mpr ⟨hb, by simpa using hneg⟩)
      obtain ⟨k, hk, hgd⟩ := mem_getD hbD
      have hzero := hdz k hk
      have hbal := hInv.dbal k hk
      rw [hbal, hgd] at hzero
      have hout : b.balance + outSum st.settlements b.name = 0 := by
        simpa using hzero
      have hin : inSum st.settlements b.name = 0 := by
        apply inSum_eq_zero
        intro t ht heq
        have hto := (hInv.snames t ht).2
        rw [heq] at hto
        exact hdisj (hgd ▸ List.mem_map_of_mem BalanceRec.name
          (getD_mem hk)) hto
      rw [hin]
      linarith
    · have hnameD : b.name ∉ (debtorsOf balances).map BalanceRec.name := by
        intro hmem
        obtain ⟨b2, hb2, heq⟩ := List.mem_map.mp hmem
        have h2 := List.mem_filter.mp
          ((List.mergeSort_perm _ _).mem_iff.mp hb2)
        have : b2 = b := List.inj_on_of_nodup_map hnd h2.1 hb heq
        rw [this] at h2
        have : b.balance < 0 := by simpa using h2.2
        linarith
      have hnameC : b.name ∉ (creditorsOf balances).map BalanceRec.name := by
        intro hmem
        obtain ⟨b2, hb2, heq⟩ := List.mem_map.mp hmem
        have h2 := List.mem_filter.mp
          ((List.mergeSort_perm _ _).mem_iff.mp hb2)
        have : b2 = b := List.inj_on_of_nodup_map hnd h2.1 hb heq
        rw [this] at h2
        have : 0 < b.balance := by simpa using h2.2
        linarith
      have hout : outSum st.settlements b.name = 0 := by
        apply outSum_eq_zero
        intro t ht heq
        exact hnameD (heq ▸ (hInv.snames t ht).1)
      have hin : inSum st.settlements b.name = 0 := by
        apply inSum_eq_zero
        intro t ht heq
        exact hnameC (heq ▸ (hInv.snames t ht).2)
      rw [hout, hin, hzero]
      ring
    · have hbC : b ∈ creditorsOf balances :=
        ((List.mergeSort_perm _ _).mem_iff).mpr
          (List.mem_filter.mpr ⟨hb, by simpa using hpos⟩)
      obtain ⟨k, hk, hgd⟩ := mem_getD hbC
      have hzero := hcz k hk
      have hbal := hInv.cbal k hk
      rw [hbal, hgd] at hzero
      have hin : b.balance - inSum st.settlements b.name = 0 := by
        simpa using hzero
      have hout : outSum st.settlements b.name = 0 := by
        apply outSum_eq_zero
        intro t ht heq
        have hfrom := (hInv.snames t ht).1
        rw [heq] at hfrom
        exact hdisj hfrom (hgd ▸ List.mem_map_of_mem BalanceRec.name
          (getD_mem hk))
      rw [hout]
      linarith
  intro b hb
  refine ⟨hmain b hb, ?_⟩
  rw [hmain b hb]
  norm_num

theorem C3_amended_witness :
    (-100 : ℚ) + outSum [⟨"B", "A", 100⟩, ⟨"C", "A", 100⟩] "B" -
        inSum [⟨"B", "A", 100⟩, ⟨"C", "A", 100⟩] "B" = 0 ∧
    |(-100 : ℚ) + outSum [⟨"B", "A", 100⟩, ⟨"C", "A", 100⟩] "B" -
        inSum [⟨"B", "A", 100⟩, ⟨"C", "A", 100⟩] "B"| < 0.01 :=
  C3_amended scenarioBalances 10 _
    (by
      show (["A", "B", "C"] : List String).Nodup
      decide)
    (by
      intro b hb
      simp only [scenarioBalances, List.mem_cons, List.not_mem_nil,
        or_false] at hb
      rcases hb with rfl | rfl | rfl
      · exact ⟨20000, by norm_num⟩
      · exact ⟨-10000, by norm_num⟩
      · exact ⟨-10000, by norm_num⟩)
    (by norm_num [scenarioBalances])
    scenarioPlan
    ⟨"B", 0, 100, -100⟩ (by simp [scenarioBalances])

theorem computeBalances_names (people : List Person) :
    (computeBalances people).map BalanceRec.name =
      people.map Person.name := by
  simp only [computeBalances, List.map_map]
  rfl

theorem computeBalances_cent (people : List Person) :
    ∀ b ∈ computeBalances people, cent b.balance := by
  intro b hb
  simp only [computeBalances, List.mem_map] at hb
  obtain ⟨p, _, rfl⟩ := hb
  exact cent_round2 _

/-- The working arrays keep the initial lists' names at every position. -/
theorem loopInv_debtor_names (D0 C0 : List BalanceRec) (st : SettleState)
    (hInv : LoopInv D0 C0 st) :
    st.debtors.map BalanceRec.name = D0.map BalanceRec.name := by
  apply List.ext_getElem (by simp [hInv.dlen])
  intro n h1 h2
  simp only [List.getElem_map]
  have hn : n < D0.length := by simpa using h2
  have hn2 : n < st.debtors.length := by simpa using h1
  rw [← List.getD_eq_getElem st.debtors default hn2,
    ← List.getD_eq_getElem D0 default hn, hInv.dbal n hn]

theorem loopInv_creditor_names (D0 C0 : List BalanceRec) (st : SettleState)
    (hInv : LoopInv D0 C0 st) :
    st.creditors.map BalanceRec.name = C0.map BalanceRec.name := by
  apply List.ext_getElem (by simp [hInv.clen])
  intro n h1 h2
  simp only [List.getElem_map]
  have hn : n < C0.length := by simpa using h2
  have hn2 : n < st.creditors.length := by simpa using h1
  rw [← List.getD_eq_getElem st.creditors default hn2,
    ← List.getD_eq_getElem C0 default hn, hInv.cbal n hn]

/-- C2: the `/settlements` summary is the aggregator's `balances` array
itself, with each record's `balance` field mutated in place by the loop:
its final value is the aggregated balance plus the person's outgoing
emitted transfers minus their incoming ones, while `name`, `paid` and
`owes` are untouched. -/
theorem C2_summary_residual (people : List Person) (fuel : ℕ)
    (resp : SettlementsResp)
    (hnd : (people.map Person.name).Nodup)
    (h : settlementsEndpoint people fuel = some (Except.ok resp)) :
    resp.summary = (computeBalances people).map
      (fun b =>
        { b with
          balance := b.balance + outSum resp.settlements b.name -
            inSum resp.settlements b.name }) := by
  rw [settlementsEndpoint] at h
  cases hv : validatePeople people with
  | some e =>
      rw [hv] at h
      simp at h
  | none =>
      rw [hv] at h
      dsimp only at h
      cases hp : planSettlements (computeBalances people) fuel with
      | none =>
          rw [hp] at h
          simp at h
      | some st =>
          rw [hp] at h
          dsimp only at h
          simp only [Option.some.injEq, Except.ok.injEq] at h
          rw [← h]
          show (computeBalances people).map
            (updatedRecord st.debtors st.creditors) = _
          have hndb : ((computeBalances people).map
              BalanceRec.name).Nodup := by
            rw [computeBalances_names]
            exact hnd
          have hcent := computeBalances_cent people
          obtain ⟨hD0, hC0, hnames⟩ :=
            initial_lists_ok (computeBalances people) hndb hcent
          rw [planSettlements_eq] at hp
          obtain ⟨hInv, _⟩ := loopInv_run _ _ hD0 hC0 hnames fuel st hp
          obtain ⟨hndD, hndC, hdisj⟩ := List.nodup_append.mp hnames
          apply List.map_congr_left
          intro b hb
          rcases lt_trichotomy b.balance 0 with hneg | hzero | hpos
          · have hbD : b ∈ debtorsOf (computeBalances people) :=
              ((List.mergeSort_perm _ _).mem_iff).mpr
                (List.mem_filter.mpr ⟨hb, by simpa using hneg⟩)
            obtain ⟨k, hk, hgd⟩ := mem_getD hbD
            have hkd : k < st.debtors.length := hInv.dlen ▸ hk
            have hin : inSum st.settlements b.name = 0 := by
              apply inSum_eq_zero
              intro t ht heq
              have hto := (hInv.snames t ht).2
              rw [heq] at hto
              exact hdisj (hgd ▸ List.mem_map_of_mem BalanceRec.name
                (getD_mem hk)) hto
            have hname : b.name = (st.debtors.getD k default).name := by
              rw [hInv.dbal k hk, hgd]
            have hfind : st.debtors.find? (fun r => r.name == b.name) =
                some (st.debtors.getD k default) := by
              rw [hname]
              exact find?_name_of_nodup st.debtors
                (by rw [loopInv_debtor_names _ _ _ hInv]; exact hndD) k hkd
            rw [updatedRecord, if_neg (by linarith), if_pos hneg, hfind]
            show st.debtors.getD k default = _
            rw [hInv.dbal k hk, hgd, hin, sub_zero]
          · have hnameD : b.name ∉
                (debtorsOf (computeBalances people)).map BalanceRec.name := by
              intro hmem
              obtain ⟨b2, hb2, heq⟩ := List.mem_map.mp hmem
              have h2 := List.mem_filter.mp
                ((List.mergeSort_perm _ _).mem_iff.mp hb2)
              have hb2b : b2 = b :=
                List.inj_on_of_nodup_map hndb h2.1 hb heq
              rw [hb2b] at h2
              have : b.balance < 0 := by simpa using h2.2
              linarith
            have hnameC : b.name ∉
                (creditorsOf (computeBalances people)).map
                  BalanceRec.name := by
              intro hmem
              obtain ⟨b2, hb2, heq⟩ := List.mem_map.mp hmem
              have h2 := List.mem_filter.mp
                ((List.mergeSort_perm _ _).mem_iff.mp hb2)
              have hb2b : b2 = b :=
                List.inj_on_of_nodup_map hndb h2.1 hb heq
              rw [hb2b] at h2
              have : 0 < b.balance := by simpa using h2.2
              linarith
            have hout : outSum st.settlements b.name = 0 := by
              apply outSum_eq_zero
              intro t ht heq
              exact hnameD (heq ▸ (hInv.snames t ht).1)
            have hin : inSum st.settlements b.name = 0 := by
              apply inSum_eq_zero
              intro t ht heq
              exact hnameC (heq ▸ (hInv.snames t ht).2)
            rw [updatedRecord, if_neg (by linarith), if_neg (by linarith)]
            rw [hout, hin]
            have harith : b.balance + 0 - 0 = b.balance := by ring
            rw [harith]
          · have hbC : b ∈ creditorsOf (computeBalances people) :=
              ((List.mergeSort_perm _ _).mem_iff).mpr
                (List.mem_filter.mpr ⟨hb, by simpa using hpos⟩)
            obtain ⟨k, hk, hgd⟩ := mem_getD hbC
            have hkc : k < st.creditors.length := hInv.clen ▸ hk
            have hout : outSum st.settlements b.name = 0 := by
              apply outSum_eq_zero
              intro t ht heq
              have hfrom := (hInv.snames t ht).1
              rw [heq] at hfrom
              exact hdisj hfrom (hgd ▸ List.mem_map_of_mem BalanceRec.name
                (getD_mem hk))
            have hname : b.name = (st.creditors.getD k default).name := by
              rw [hInv.cbal k hk, hgd]
            have hfind : st.creditors.find? (fun r => r.name == b.name) =
                some (st.creditors.getD k default) := by
              rw [hname]
              exact find?_name_of_nodup st.creditors
                (by rw [loopInv_creditor_names _ _ _ hInv]; exact hndC) k hkc
            rw [updatedRecord, if_pos hpos, hfind]
            show st.creditors.getD k default = _
            rw [hInv.cbal k hk, hgd, hout]
            have harith : b.balance + 0 -
                inSum st.settlements b.name =
              b.balance - inSum st.settlements b.name := by ring
            rw [harith]

/-- Spec §8 scenario: one expense of 300 paid by A, split equally among
A, B and C. -/
def exp300 : Expense :=
  ⟨30, 300, [⟨SplitType.equal, 0⟩, ⟨SplitType.equal, 0⟩,
    ⟨SplitType.equal, 0⟩]⟩

def peopleScenario : List Person :=
  [⟨"A", [exp300], [⟨SplitType.equal, 0, exp300⟩]⟩,
   ⟨"B", [], [⟨SplitType.equal, 0, exp300⟩]⟩,
   ⟨"C", [], [⟨SplitType.equal, 0, exp300⟩]⟩]

theorem scenarioValidate : validatePeople peopleScenario = none := by
  simp [validatePeople, checkSplit, peopleScenario, exp300, List.findSome?]

theorem scenarioAggregate :
    computeBalances peopleScenario = scenarioBalances := by
  simp [computeBalances, rawPaid, rawOwes, peopleScenario, exp300,
    scenarioBalances]
  norm_num [round2, round_eq]

theorem scenarioEndpoint :
    settlementsEndpoint peopleScenario 10 =
      some (Except.ok
        { summary := [⟨"A", 300, 100, 0⟩, ⟨"B", 0, 100, 0⟩,
            ⟨"C", 0, 100, 0⟩]
          settlements := [⟨"B", "A", 100⟩, ⟨"C", "A", 100⟩] }) := by
  rw [settlementsEndpoint, scenarioValidate]
  dsimp only
  rw [scenarioAggregate, scenarioPlan]
  dsimp only
  norm_num [scenarioBalances, updatedRecord, List.find?]
  decide

theorem C2_summary_residual_witness :
    ({ summary := [⟨"A", 300, 100, 0⟩, ⟨"B", 0, 100, 0⟩,
          ⟨"C", 0, 100, 0⟩]
       settlements := [⟨"B", "A", 100⟩, ⟨"C", "A", 100⟩] } :
        SettlementsResp).summary =
      (computeBalances peopleScenario).map
        (fun b =>
          { b with
            balance := b.balance +
              outSum [⟨"B", "A", 100⟩, ⟨"C", "A", 100⟩] b.name -
              inSum [⟨"B", "A", 100⟩, ⟨"C", "A", 100⟩] b.name }) :=
  C2_summary_residual peopleScenario 10 _
    (by
      show (["A", "B", "C"] : List String).Nodup
      decide)
    scenarioEndpoint

/-! ## C10 — the closed-system balance-sum bound -/

/-- The owed total is the sum of the Split Evaluator's per-row shares. -/
theorem rawOwes_eq_shares (p : Person) :
    rawOwes p = (p.splits.map shareOf).sum := by
  show p.splits.foldl (fun sum split => sum + shareOf split) 0 = _
  rw [foldl_add_eq, zero_add]

theorem sum_map_sub {α : Type} (l : List α) (f g : α → ℚ) :
    (l.map (fun a => f a - g a)).sum = (l.map f).sum - (l.map g).sum := by
  induction l with
  | nil => simp
  | cons x l ih =>
      simp only [List.map_cons, List.sum_cons, ih]
      ring

theorem sum_map_add {α : Type} (l : List α) (f g : α → ℚ) :
    (l.map (fun a => f a + g a)).sum = (l.map f).sum + (l.map g).sum := by
  induction l with
  | nil => simp
  | cons x l ih =>
      simp only [List.map_cons, List.sum_cons, ih]
      ring

theorem abs_sum_le (l : List ℚ) : |l.sum| ≤ (l.map (fun x => |x|)).sum := by
  induction l with
  | nil => simp
  | cons x l ih =>
      simp only [List.sum_cons, List.map_cons]
      calc |x + l.sum| ≤ |x| + |l.sum| := abs_add _ _
        _ ≤ |x| + (l.map (fun x => |x|)).sum := by linarith

theorem sum_flatMap_shares (people : List Person) :
    (people.map (fun p => (p.splits.map shareOf).sum)).sum =
      ((people.flatMap Person.splits).map shareOf).sum := by
  induction people with
  | nil => simp
  | cons p ppl ih =>
      simp only [List.map_cons, List.sum_cons, List.flatMap_cons,
        List.map_append, List.sum_append, ih]

/-- The share of one row of `expense.splits`, as the Split Evaluator
computes it for the row's owner. -/
def innerShare (e : Expense) (r : InnerSplit) : ℚ :=
  shareOf ⟨r.splitType, r.value, e⟩

/-- A closed-system snapshot over the expense list `es`: the per-person
`paid` lists attribute exactly the amounts of `es`; the split rows
reached through people are, up to order, exactly the rows of `es` (each
carrying its owning expense); each expense's full split set fully
allocates its amount; and every payer also appears as a splitter. -/
def ClosedSystem (people : List Person) (es : List Expense) : Prop :=
  (people.map rawPaid).sum = (es.map Expense.amount).sum ∧
  (people.flatMap Person.splits).Perm
    (es.flatMap (fun e => e.splits.map
      (fun r => ⟨r.splitType, r.value, e⟩))) ∧
  (∀ e ∈ es, (e.splits.map (innerShare e)).sum = e.amount) ∧
  (∀ p ∈ people, p.paid ≠ [] → p.splits ≠ [])

theorem flatMap_alloc (es : List Expense)
    (halloc : ∀ e ∈ es, (e.splits.map (innerShare e)).sum = e.amount) :
    ((es.flatMap (fun e => e.splits.map
        (fun r => ⟨r.splitType, r.value, e⟩))).map shareOf).sum =
      (es.map Expense.amount).sum := by
  induction es with
  | nil => simp
  | cons e es ih =>
      simp only [List.flatMap_cons, List.map_append, List.sum_append,
        List.map_cons, List.sum_cons]
      rw [ih (fun e2 he2 => halloc e2 (List.mem_cons_of_mem e he2))]
      congr 1
      rw [List.map_map]
      exact halloc e (List.mem_cons_self e es)

/-- Rounding to two decimals moves a value by at most half a cent. -/
theorem abs_round2_sub (x : ℚ) : |round2 x - x| ≤ 1/200 := by
  have h := abs_sub_round (x * 100)
  have h2 : round2 x - x = -((x * 100 - round (x * 100)) / 100) := by
    rw [round2]
    ring
  rw [h2, abs_neg, abs_div, abs_of_pos (show (0:ℚ) < 100 by norm_num)]
  linarith

/-- C10 (amended): for a closed system the returned balances sum to
within `±0.005·n` of zero, where `n` is the number of people (each
person's figure carries at most half a cent of rounding error; the
errors need not cancel). -/
theorem C10_amended (people : List Person) (es : List Expense)
    (h : ClosedSystem people es) :
    |((computeBalances people).map BalanceRec.balance).sum| ≤
      people.length * (1/200) := by
  obtain ⟨hpaid, hperm, halloc, _⟩ := h
  have hmapbal : (computeBalances people).map BalanceRec.balance =
      people.map (fun p => round2 (rawPaid p - rawOwes p)) := by
    simp only [computeBalances, List.map_map]
    rfl
  have howes : (people.map rawOwes).sum = (es.map Expense.amount).sum := by
    calc (people.map rawOwes).sum
        = (people.map (fun p => (p.splits.map shareOf).sum)).sum := by
          rw [List.map_congr_left (fun p _ => rawOwes_eq_shares p)]
      _ = ((people.flatMap Person.splits).map shareOf).sum :=
          sum_flatMap_shares people
      _ = ((es.flatMap (fun e => e.splits.map
            (fun r => ⟨r.splitType, r.value, e⟩))).map shareOf).sum :=
          (hperm.map shareOf).sum_eq
      _ = (es.map Expense.amount).sum := flatMap_alloc es halloc
  have hsumg : (people.map (fun p => rawPaid p - rawOwes p)).sum = 0 := by
    rw [sum_map_sub, hpaid, howes, sub_self]
  have hdecomp : (people.map
      (fun p => round2 (rawPaid p - rawOwes p))).sum =
    (people.map (fun p => round2 (rawPaid p - rawOwes p) -
      (rawPaid p - rawOwes p))).sum +
    (people.map (fun p => rawPaid p - rawOwes p)).sum := by
    rw [← sum_map_add]
    apply congrArg
    apply List.map_congr_left
    intro p _
    ring
  rw [hmapbal, hdecomp, hsumg, add_zero]
  calc |((people.map (fun p => round2 (rawPaid p - rawOwes p) -
        (rawPaid p - rawOwes p))).sum)|
      ≤ ((people.map (fun p => round2 (rawPaid p - rawOwes p) -
        (rawPaid p - rawOwes p))).map (fun x => |x|)).sum := abs_sum_le _
    _ ≤ ((people.map (fun p => round2 (rawPaid p - rawOwes p) -
        (rawPaid p - rawOwes p))).map (fun x => |x|)).length • ((1:ℚ)/200)
        := by
        apply List.sum_le_card_nsmul
        intro x hx
        rw [List.mem_map] at hx
        obtain ⟨y, hy, rfl⟩ := hx
        rw [List.mem_map] at hy
        obtain ⟨p, _, rfl⟩ := hy
        exact abs_round2_sub _
    _ = people.length * (1/200) := by
        simp [nsmul_eq_mul]

/-- Interleaving permutation: person-grouped rows versus expense-grouped
rows for two rows per expense. -/
theorem map_map_perm_flatMap {α β : Type} (f g : α → β) (l : List α) :
    (l.map f ++ l.map g).Perm (l.flatMap (fun a => [f a, g a])) := by
  induction l with
  | nil => simp
  | cons a l ih =>
      simp only [List.map_cons, List.cons_append, List.flatMap_cons]
      exact List.Perm.cons (f a)
        (List.Perm.trans List.perm_middle (List.Perm.cons (g a) ih))

/-- Expense `k` of the closed-system counterexample: amount `0.006`,
fully allocated by an exact split of 0 (its payer) and an exact split of
`0.006` (person Q). -/
def eClosed (k : ℕ) : Expense :=
  ⟨k, 6/1000, [⟨SplitType.exact, 0⟩, ⟨SplitType.exact, 6/1000⟩]⟩

/-- Payer of expense `k`: paid `0.006`, owes an exact 0 split of it. -/
def pClosed (k : ℕ) (n : String) : Person :=
  ⟨n, [eClosed k], [⟨SplitType.exact, 0, eClosed k⟩]⟩

/-- Person Q owes the full `0.006` of each of the seven expenses. -/
def qClosed : Person :=
  ⟨"Q", [],
    [⟨SplitType.exact, 6/1000, eClosed 1⟩,
     ⟨SplitType.exact, 6/1000, eClosed 2⟩,
     ⟨SplitType.exact, 6/1000, eClosed 3⟩,
     ⟨SplitType.exact, 6/1000, eClosed 4⟩,
     ⟨SplitType.exact, 6/1000, eClosed 5⟩,
     ⟨SplitType.exact, 6/1000, eClosed 6⟩,
     ⟨SplitType.exact, 6/1000, eClosed 7⟩]⟩

def peopleClosed : List Person :=
  [pClosed 1 "P1", pClosed 2 "P2", pClosed 3 "P3", pClosed 4 "P4",
   pClosed 5 "P5", pClosed 6 "P6", pClosed 7 "P7", qClosed]

def esClosed : List Expense :=
  [eClosed 1, eClosed 2, eClosed 3, eClosed 4, eClosed 5, eClosed 6,
   eClosed 7]

theorem closedPerm : (peopleClosed.flatMap Person.splits).Perm
    (esClosed.flatMap (fun e => e.splits.map
      (fun r => ⟨r.splitType, r.value, e⟩))) := by
  have h1 : peopleClosed.flatMap Person.splits =
      esClosed.map (fun e => (⟨SplitType.exact, 0, e⟩ : OuterSplit)) ++
        esClosed.map
          (fun e => (⟨SplitType.exact, 6/1000, e⟩ : OuterSplit)) := rfl
  have h2 : esClosed.flatMap (fun e => e.splits.map
      (fun r => ⟨r.splitType, r.value, e⟩)) =
    esClosed.flatMap (fun e =>
      [(⟨SplitType.exact, 0, e⟩ : OuterSplit),
       ⟨SplitType.exact, 6/1000, e⟩]) := rfl
  rw [h1, h2]
  exact map_map_perm_flatMap _ _ esClosed

/-- The eight-person snapshot is a closed system over its seven
expenses. -/
theorem closedSystemHolds : ClosedSystem peopleClosed esClosed := by
  refine ⟨?_, closedPerm, ?_, ?_⟩
  · simp [peopleClosed, esClosed, rawPaid, pClosed, qClosed, eClosed]
  · intro e he
    simp only [esClosed, List.mem_cons, List.not_mem_nil, or_false] at he
    rcases he with rfl | rfl | rfl | rfl | rfl | rfl | rfl <;>
      simp [innerShare, shareOf, eClosed]
  · intro p hp
    simp only [peopleClosed, List.mem_cons, List.not_mem_nil,
      or_false] at hp
    rcases hp with rfl | rfl | rfl | rfl | rfl | rfl | rfl | rfl <;>
      simp [pClosed, qClosed]

/-- C10 (counterexample): the claim bounds the closed-system balance sum
by `±0.02`; on `peopleClosed` every hypothesis of the claim holds, the
snapshot passes validation, yet the seven `+0.006` figures each round up
to `+0.01` while Q's `-0.042` rounds to `-0.04`, so the returned
balances sum to `0.03 > 0.02`. -/
theorem C10_counterexample :
    ClosedSystem peopleClosed esClosed ∧
    validatePeople peopleClosed = none ∧
    ((computeBalances peopleClosed).map BalanceRec.balance).sum = 3/100 ∧
    ¬ |(3/100 : ℚ)| ≤ 2/100 := by
  refine ⟨closedSystemHolds, ?_, ?_, by
    rw [abs_of_pos (by norm_num : (0:ℚ) < 3/100)]
    norm_num⟩
  · simp [validatePeople, checkSplit, peopleClosed, pClosed, qClosed,
      eClosed, List.findSome?]
    norm_num
  · simp [computeBalances, rawPaid, rawOwes, peopleClosed, pClosed,
      qClosed, eClosed]
    norm_num [round2, round_eq]

theorem C10_amended_witness :
    |((computeBalances peopleClosed).map BalanceRec.balance).sum| ≤
      peopleClosed.length * (1/200) :=
  C10_amended peopleClosed esClosed closedSystemHolds

end SplitApp
